import Mathlib

/-!
Verification of the genome-similarity and population-diversity engine
(`src/genome-compare.cpp`) against its natural-language specification.

Floating-point values are modelled as exact rationals (`ℚ`); C machine
integers are `ℕ`/`ℤ`.  Fallible paths (failed `assert`, a division whose
divisor is zero) are modelled with `Except SimError`.
-/

namespace BS

/-- Modelled from the spec: the `Gene` record (its defining header is not part
of this slice).  Spec §3: fields `sourceType`, `sourceNum`, `sinkType`,
`sinkNum`, `weight`; values are assumed valid and are not range checked. -/
structure Gene where
  sourceType : ℕ
  sourceNum : ℕ
  sinkType : ℕ
  sinkNum : ℕ
  weight : ℤ
deriving DecidableEq

/-- Modelled from the spec: a gene's packed 32-bit machine-word representation
(spec §6: "one machine word per gene"; `analysis.cpp` asserts
`sizeof(Gene) == 4`).  Bit widths 1/7/1/7/16 in low-to-high order; stored
fields are truncated to their widths as C bit-fields are. -/
def geneWord (g : Gene) : ℕ :=
  g.sourceType % 2 + 2 * (g.sourceNum % 2 ^ 7) + 2 ^ 8 * (g.sinkType % 2) +
    2 ^ 9 * (g.sinkNum % 2 ^ 7) + 2 ^ 16 * (g.weight % 2 ^ 16).toNat

/-- A genome is an ordered sequence of genes (`Genome = std::vector<Gene>`). -/
abbrev Genome := List Gene

/-- `genesMatch` from genome-compare.cpp: exact equality of all five fields. -/
def genesMatch (g1 g2 : Gene) : Bool :=
  g1.sinkNum == g2.sinkNum
    && g1.sourceNum == g2.sourceNum
    && g1.sinkType == g2.sinkType
    && g1.sourceType == g2.sourceType
    && g1.weight == g2.weight

/-- Error outcomes of the fallible paths: a failed `assert` on unequal
lengths, the failed `assert(false)` on an unrecognized comparison method,
and a division whose divisor is zero. -/
inductive SimError where
  | lengthMismatch
  | invalidConfiguration
  | divisionByZero
deriving DecidableEq

/-- `__builtin_popcount`: population count of a 32-bit word (the operands
here are packed gene words, which are below `2^32`). -/
def popCount (n : ℕ) : ℕ := go 32 n where
  go : ℕ → ℕ → ℕ
  | 0, _ => 0
  | fuel + 1, n => n % 2 + go fuel (n / 2)

/-- The inner scan of the Jaro-Winkler matching loop: the first index `j`
in `[lo, hi)` whose gene matches `g` and whose flag is not yet set. -/
def jwInner (s : List Gene) (g : Gene) (lo hi : ℕ) (claimed : Finset ℕ) :
    Option ℕ :=
  (List.range' lo (hi - lo)).find? fun j =>
    (s[j]?.any fun x => genesMatch g x) && decide (j ∉ claimed)

/-- The matching loop of `jaro_winkler_distance`: walk the genes of `a`
in order (`i` is the current index), claiming for each the first unclaimed
matching position of `s` inside the window
`[max(i-range,0), min(i+range+1, sl))`.  Returns the final set of claimed
`s`-positions (the `sflags` vector) and the per-element match flags of `a`
(the `aflags` vector). -/
def jwMatchGo (s : List Gene) (range : ℕ) :
    List Gene → ℕ → Finset ℕ → Finset ℕ × List Bool
  | [], _, claimed => (claimed, [])
  | g :: rest, i, claimed =>
    match jwInner s g (i - range) (min (i + range + 1) s.length) claimed with
    | some j =>
      let r := jwMatchGo s range rest (i + 1) (insert j claimed)
      (r.1, true :: r.2)
    | none =>
      let r := jwMatchGo s range rest (i + 1) claimed
      (r.1, false :: r.2)

/-- The transposition loop of `jaro_winkler_distance`: walk the genes of `a`
with their match flags; for each flagged gene, advance the cursor `l` to the
next set `s`-flag at position `j` and count a transposition when the two
aligned genes do not match. -/
def jwTransGo (s : List Gene) (sflags : List Bool) :
    List (Gene × Bool) → ℕ → ℕ
  | [], _ => 0
  | (g, flag) :: rest, l =>
    if flag then
      let j := l + (sflags.drop l).findIdx fun b => b
      match s[j]? with
      | some x => (if genesMatch g x then 0 else 1) + jwTransGo s sflags rest (j + 1)
      | none => jwTransGo s sflags rest l
    else jwTransGo s sflags rest l

/-- The Winkler prefix scan: length of the leading run of positionally
matching genes, capped at the given bound. -/
def jwPrefix : List Gene → List Gene → ℕ → ℕ
  | x :: xs, y :: ys, n + 1 => if genesMatch x y then jwPrefix xs ys n + 1 else 0
  | _, _, _ => 0

/-- `jaro_winkler_distance` from genome-compare.cpp.  Effective lengths are
capped at 20 (`maxNumGenesToCompare`); `range = max(0, max(sl,al)/2 - 1)`
(the ℕ subtraction realizes the clamp of the C `max(0, ·)`). -/
def jaro_winkler_distance (genome1 genome2 : Genome) : ℚ :=
  let s := genome1.take 20
  let a := genome2.take 20
  let sl := s.length
  let al := a.length
  let range := max sl al / 2 - 1
  if sl = 0 ∨ al = 0 then 0
  else
    let ms := jwMatchGo s range a 0 ∅
    let m := ms.2.count true
    if m = 0 then 0
    else
      let sflags := (List.range sl).map fun j => decide (j ∈ ms.1)
      let t := jwTransGo s sflags (a.zip ms.2) 0 / 2
      let dw := ((m : ℚ) / sl + (m : ℚ) / al + ((m : ℚ) - (t : ℚ)) / m) / 3
      let matchingPrefix := jwPrefix s a (min 4 (min sl al))
      min 1 (dw + 1 / 10 * matchingPrefix * (1 - dw))

/-- `hammingDistanceBits` from genome-compare.cpp: popcount of the XOR of
the corresponding packed 32-bit gene words (`sizeof(Gene) == 4`, so the scan
of `genome1.size()` unsigned words covers the whole buffer);
`lengthBits = numElements * 4 * 8`.  The `assert` on unequal lengths and the
zero divisor of the empty case are modelled as errors. -/
def hammingDistanceBits (genome1 genome2 : Genome) : Except SimError ℚ :=
  if genome1.length = genome2.length then
    let lengthBits := genome1.length * 32
    if lengthBits = 0 then .error .divisionByZero
    else
      let bitCount :=
        ((genome1.zip genome2).map fun p => popCount (geneWord p.1 ^^^ geneWord p.2)).sum
      .ok (1 - min 1 (2 * (bitCount : ℚ) / (lengthBits : ℚ)))
  else .error .lengthMismatch

/-- `hammingDistanceBytes` from genome-compare.cpp: count the gene positions
whose packed 32-bit words are equal (`*p1 == *p2`) and divide by
`lengthBytes = numElements * 4`.  The `assert` on unequal lengths and the
zero divisor of the empty case are modelled as errors. -/
def hammingDistanceBytes (genome1 genome2 : Genome) : Except SimError ℚ :=
  if genome1.length = genome2.length then
    let lengthBytes := genome1.length * 4
    if lengthBytes = 0 then .error .divisionByZero
    else
      let byteCount := (genome1.zip genome2).countP fun p => geneWord p.1 == geneWord p.2
      .ok ((byteCount : ℚ) / (lengthBytes : ℚ))
  else .error .lengthMismatch

/-- `genomeSimilarity` from genome-compare.cpp.  The comparison method
(`p.genomeComparisonMethod`, process-wide configuration) is passed
explicitly.  Unequal lengths: Jaro-Winkler blended with the length ratio,
the method being ignored.  Equal lengths: dispatch on the method; the
`assert(false)` of the default case is modelled as `InvalidConfiguration`. -/
def genomeSimilarity (g1 g2 : Genome) (method : ℤ) : Except SimError ℚ :=
  if g1.length ≠ g2.length then
    let len1 : ℚ := g1.length
    let len2 : ℚ := g2.length
    .ok (jaro_winkler_distance g1 g2 * (8 / 10) + min len1 len2 / max len1 len2 * (2 / 10))
  else if method = 0 then .ok (jaro_winkler_distance g1 g2)
  else if method = 1 then hammingDistanceBits g1 g2
  else if method = 2 then hammingDistanceBytes g1 g2
  else .error .invalidConfiguration

/-- `geneticDiversity` from genome-compare.cpp.  Modelled from the spec:
the population (`peeps`, 1-based), its size (`p.population`), the comparison
method and the random source (`randomUint(1, p.population - 1)`, one draw
per iteration) are external collaborators passed in explicitly; `draws k` is
the value of the `k`-th random draw. -/
def geneticDiversity (population : ℕ) (peeps : ℕ → Genome) (method : ℤ)
    (draws : ℕ → ℕ) : Except SimError ℚ :=
  if population < 2 then .ok 0
  else
    let count := min 1000 population
    match (List.range count).foldlM
        (fun acc k =>
          (genomeSimilarity (peeps (draws k)) (peeps (draws k + 1)) method).map
            fun sim => acc + sim)
        (0 : ℚ) with
    | .ok similaritySum => .ok (1 - similaritySum / (count : ℚ))
    | .error e => .error e

instance : DecidableEq (Except SimError ℚ) := fun a b =>
  match a, b with
  | .ok x, .ok y => decidable_of_iff (x = y) (by simp)
  | .error x, .error y => decidable_of_iff (x = y) (by simp)
  | .ok _, .error _ => isFalse (by simp)
  | .error _, .ok _ => isFalse (by simp)

/-! ### Sample genes for witnesses and counterexamples -/

/-- A sample gene whose packed word is `0`. -/
def gZero : Gene := ⟨0, 0, 0, 0, 0⟩

/-- A sample gene whose packed word is `2^32 - 1` (all bits set). -/
def gOnes : Gene := ⟨1, 127, 1, 127, -1⟩

/-- A sample gene differing from `gZero` only in its weight. -/
def gW1 : Gene := ⟨0, 0, 0, 0, 1⟩

/-! ### Basic properties of `genesMatch` -/

theorem genesMatch_iff (g1 g2 : Gene) : genesMatch g1 g2 = true ↔ g1 = g2 := by
  cases g1; cases g2
  simp [genesMatch, Gene.mk.injEq, and_comm, and_assoc, and_left_comm]

theorem genesMatch_refl (g : Gene) : genesMatch g g = true :=
  (genesMatch_iff g g).mpr rfl

theorem genesMatch_comm (g1 g2 : Gene) : genesMatch g1 g2 = genesMatch g2 g1 := by
  rw [Bool.eq_iff_iff, genesMatch_iff, genesMatch_iff]
  exact eq_comm

/-! ### Branch-unfolding helpers for `genomeSimilarity` -/

theorem genomeSimilarity_of_len_ne {g1 g2 : Genome} (method : ℤ)
    (h : g1.length ≠ g2.length) :
    genomeSimilarity g1 g2 method =
      .ok (jaro_winkler_distance g1 g2 * (8 / 10) +
        min (g1.length : ℚ) (g2.length : ℚ) / max (g1.length : ℚ) (g2.length : ℚ) * (2 / 10)) := by
  simp [genomeSimilarity, h]

theorem genomeSimilarity_method0 {g1 g2 : Genome} (h : g1.length = g2.length) :
    genomeSimilarity g1 g2 0 = .ok (jaro_winkler_distance g1 g2) := by
  simp [genomeSimilarity, h]

theorem genomeSimilarity_method1 {g1 g2 : Genome} (h : g1.length = g2.length) :
    genomeSimilarity g1 g2 1 = hammingDistanceBits g1 g2 := by
  simp [genomeSimilarity, h]

theorem genomeSimilarity_method2 {g1 g2 : Genome} (h : g1.length = g2.length) :
    genomeSimilarity g1 g2 2 = hammingDistanceBytes g1 g2 := by
  simp [genomeSimilarity, h]

theorem genomeSimilarity_method_bad {g1 g2 : Genome} {method : ℤ}
    (h : g1.length = g2.length) (h0 : method ≠ 0) (h1 : method ≠ 1) (h2 : method ≠ 2) :
    genomeSimilarity g1 g2 method = .error .invalidConfiguration := by
  simp [genomeSimilarity, h, h0, h1, h2]

theorem hammingDistanceBytes_spec {g1 g2 : Genome}
    (h : g1.length = g2.length) (hne : g1 ≠ []) :
    hammingDistanceBytes g1 g2 =
      .ok ((((g1.zip g2).countP fun p => geneWord p.1 == geneWord p.2 : ℕ) : ℚ) /
        ((g1.length * 4 : ℕ) : ℚ)) := by
  have hlen : g1.length ≠ 0 := fun hc => hne (List.length_eq_zero.mp hc)
  have hlen2 : g2.length ≠ 0 := h ▸ hlen
  simp [hammingDistanceBytes, h, hlen, hlen2]

theorem hammingDistanceBits_spec {g1 g2 : Genome}
    (h : g1.length = g2.length) (hne : g1 ≠ []) :
    hammingDistanceBits g1 g2 =
      .ok (1 - min 1 (2 * ((((g1.zip g2).map fun p =>
          popCount (geneWord p.1 ^^^ geneWord p.2)).sum : ℕ) : ℚ) /
        ((g1.length * 32 : ℕ) : ℚ))) := by
  have hlen : g1.length ≠ 0 := fun hc => hne (List.length_eq_zero.mp hc)
  have hlen2 : g2.length ≠ 0 := h ▸ hlen
  simp [hammingDistanceBits, h, hlen, hlen2]

/-! ### Claim C10: the zero divisors of the exact metrics are reachable -/

/-- Claim C10 (confirmed): on two empty genomes the lengths are equal, so
`genomeSimilarity` dispatches to the exact metrics, whose divisions are
unguarded: with method 1 (`lengthBits = 0`) and method 2 (`lengthBytes = 0`)
the computation reaches a division whose divisor is zero (modelled as the
`divisionByZero` outcome), while the approximate metric guards the empty
case and returns 0.0. -/
theorem C10_empty_exact_metrics_divide_by_zero :
    genomeSimilarity [] [] 1 = .error .divisionByZero ∧
      genomeSimilarity [] [] 2 = .error .divisionByZero ∧
      genomeSimilarity [] [] 0 = .ok 0 := by
  refine ⟨rfl, rfl, rfl⟩

/-! ### Claim C8: unrecognized method on equal-length inputs is fatal -/

/-- Claim C8 (confirmed): on equal-length genomes, any comparison-method
value outside {0, 1, 2} falls into the `default: assert(false)` branch,
a fatal `InvalidConfiguration` failure rather than a similarity score. -/
theorem C8_invalid_method_fatal (g1 g2 : Genome) (method : ℤ)
    (hlen : g1.length = g2.length)
    (h0 : method ≠ 0) (h1 : method ≠ 1) (h2 : method ≠ 2) :
    genomeSimilarity g1 g2 method = .error .invalidConfiguration :=
  genomeSimilarity_method_bad hlen h0 h1 h2

/-- Witness for C8 at genomes `[gZero]`, `[gW1]` and method 3. -/
theorem C8_witness :
    genomeSimilarity [gZero] [gW1] 3 = .error .invalidConfiguration :=
  C8_invalid_method_fatal [gZero] [gW1] 3 (by decide) (by decide) (by decide) (by decide)

/-! ### Claim C4: the unequal-length blend ignores the method -/

/-- Claim C4 (confirmed): when the lengths differ, `genomeSimilarity`
returns `approx * 0.8 + ratio * 0.2` where `approx` is the Jaro-Winkler
score and `ratio = min(len1,len2) / max(len1,len2)`, for every method
value (the configured method is ignored on this path). -/
theorem C4_length_mismatch_blend (g1 g2 : Genome) (method : ℤ)
    (h : g1.length ≠ g2.length) :
    genomeSimilarity g1 g2 method =
      .ok (jaro_winkler_distance g1 g2 * (8 / 10) +
        min (g1.length : ℚ) (g2.length : ℚ) / max (g1.length : ℚ) (g2.length : ℚ) * (2 / 10)) :=
  genomeSimilarity_of_len_ne method h

/-- Witness for C4 at lengths 5 and 7 (the spec's own example) and method 2:
the blend evaluates to `0.8 * 1 + 0.2 * (5/7)` because the two genomes agree
on their compared prefixes. -/
theorem C4_witness :
    (List.replicate 5 gZero : Genome).length ≠ (List.replicate 7 gZero : Genome).length ∧
      genomeSimilarity (List.replicate 5 gZero) (List.replicate 7 gZero) 2 =
        .ok (jaro_winkler_distance (List.replicate 5 gZero) (List.replicate 7 gZero) * (8 / 10) +
          min ((List.replicate 5 gZero : Genome).length : ℚ)
              ((List.replicate 7 gZero : Genome).length : ℚ) /
            max ((List.replicate 5 gZero : Genome).length : ℚ)
              ((List.replicate 7 gZero : Genome).length : ℚ) * (2 / 10)) :=
  ⟨by decide, C4_length_mismatch_blend (List.replicate 5 gZero) (List.replicate 7 gZero) 2
    (by decide)⟩

/-! ### Claim C2: the word-level metric's actual normalization -/

/-- Claim C2 (corrected), counterexample: on the equal-length pair
`[gZero, gW1]` vs `[gZero, gZero]` exactly one of the two gene words is
identical, so the claim's formula `identicalCount / numGenes` predicts
`1/2`, but the code divides by `lengthBytes = numGenes * 4` and returns
`1/8`. -/
theorem C2_counterexample :
    genomeSimilarity [gZero, gW1] [gZero, gZero] 2 = .ok (1 / 8) ∧
      ((1 : ℚ) / 8) ≠ 1 / 2 := by
  constructor
  · rfl
  · norm_num

/-- Claim C2 (corrected): for every pair of non-empty equal-length genomes,
method 2 returns `identicalCount / lengthBytes` where `identicalCount`
counts the gene positions whose packed words are bit-identical and
`lengthBytes = numGenes * 4` is the buffer's byte length — not
`identicalCount / numGenes` as claimed.  (Two empty genomes instead reach
the zero divisor.) -/
theorem C2_word_level_formula (g1 g2 : Genome)
    (hlen : g1.length = g2.length) (hne : g1 ≠ []) :
    genomeSimilarity g1 g2 2 =
      .ok ((((g1.zip g2).countP fun p => geneWord p.1 == geneWord p.2 : ℕ) : ℚ) /
        ((g1.length * 4 : ℕ) : ℚ)) := by
  rw [genomeSimilarity_method2 hlen]
  exact hammingDistanceBytes_spec hlen hne

/-- Witness for C2 at `[gZero, gW1]` vs `[gZero, gOnes]`: one identical
word out of two genes, eight buffer bytes. -/
theorem C2_witness :
    genomeSimilarity [gZero, gW1] [gZero, gOnes] 2 =
      .ok (((([(gZero, gZero), (gW1, gOnes)] : List (Gene × Gene)).countP
          fun p => geneWord p.1 == geneWord p.2 : ℕ) : ℚ) / ((2 * 4 : ℕ) : ℚ)) :=
  C2_word_level_formula [gZero, gW1] [gZero, gOnes] (by decide) (by decide)

/-! ### Claim C9: the word-level metric is capped at 0.25 -/

/-- Claim C9 (confirmed): on non-empty equal-length genomes, method 2
counts at most one match per gene but divides by `numGenes * 4`, so any
returned value is at most `1/4` and in particular never `1.0`. -/
theorem C9_word_level_cap (g1 g2 : Genome) (q : ℚ)
    (hlen : g1.length = g2.length) (hne : g1 ≠ [])
    (hq : genomeSimilarity g1 g2 2 = .ok q) :
    q ≤ 1 / 4 ∧ q ≠ 1 := by
  rw [genomeSimilarity_method2 hlen, hammingDistanceBytes_spec hlen hne] at hq
  simp only [Except.ok.injEq] at hq
  have hn : 0 < g1.length := List.length_pos.mpr hne
  have hc : ((g1.zip g2).countP fun p => geneWord p.1 == geneWord p.2) ≤ g1.length := by
    refine le_trans (List.countP_le_length _) ?_
    rw [List.length_zip, hlen, min_self]
  have h4n : (0 : ℚ) < ((g1.length * 4 : ℕ) : ℚ) := by
    exact_mod_cast Nat.mul_pos hn (by norm_num)
  have hle : q ≤ 1 / 4 := by
    rw [← hq, div_le_iff₀ h4n]
    push_cast
    have : ((g1.zip g2).countP fun p => geneWord p.1 == geneWord p.2 : ℚ) ≤ (g1.length : ℚ) := by
      exact_mod_cast hc
    linarith
  exact ⟨hle, fun h1 => by rw [h1] at hle; linarith⟩

/-- Witness for C9 at the pair `[gZero]`, `[gZero]`, whose method-2 score
is `1/4`. -/
theorem C9_witness : (1 : ℚ) / 4 ≤ 1 / 4 ∧ (1 : ℚ) / 4 ≠ 1 :=
  C9_word_level_cap [gZero] [gZero] (1 / 4) (by decide) (by decide) rfl

/-! ### Identity lemmas for the approximate metric -/

theorem popCount_go_zero : ∀ fuel, popCount.go fuel 0 = 0
  | 0 => rfl
  | fuel + 1 => by simp [popCount.go, popCount_go_zero fuel]

theorem popCount_zero : popCount 0 = 0 := popCount_go_zero 32

theorem zip_self_eq (g : Genome) : ∀ p ∈ g.zip g, p.1 = p.2 := by
  induction g with
  | nil => intro p hp; simp [List.zip] at hp
  | cons a l ih =>
    intro p hp
    rw [List.zip_cons_cons, List.mem_cons] at hp
    rcases hp with h | h
    · rw [h]
    · exact ih p h

theorem jwInner_diag (S : List Gene) (r i : ℕ) (hi : i < S.length) :
    jwInner S (S.get ⟨i, hi⟩) (i - r) (min (i + r + 1) S.length) (Finset.range i) =
      some i := by
  have hlo : i - r ≤ i := Nat.sub_le i r
  have hhi : i < min (i + r + 1) S.length := lt_min (by omega) hi
  unfold jwInner
  have hsplit : List.range' (i - r) (i - (i - r)) ++
      List.range' i (min (i + r + 1) S.length - i) =
      List.range' (i - r) (min (i + r + 1) S.length - (i - r)) := by
    have h := List.range'_append (i - r) (i - (i - r)) (min (i + r + 1) S.length - i) 1
    simp only [one_mul] at h
    rw [show i - r + (i - (i - r)) = i by omega] at h
    rw [show min (i + r + 1) S.length - i + (i - (i - r)) =
      min (i + r + 1) S.length - (i - r) by omega] at h
    exact h
  rw [← hsplit, List.find?_append]
  have h1 : (List.range' (i - r) (i - (i - r))).find? (fun j =>
      (S[j]?.any fun x => genesMatch (S.get ⟨i, hi⟩) x) && decide (j ∉ Finset.range i)) = none := by
    rw [List.find?_eq_none]
    intro j hj
    rw [List.mem_range'] at hj
    have : j ∈ Finset.range i := Finset.mem_range.mpr (by omega)
    simp [this]
  rw [h1, Option.none_or]
  have h2 : List.range' i (min (i + r + 1) S.length - i) =
      i :: List.range' (i + 1) (min (i + r + 1) S.length - i - 1) := by
    rw [show min (i + r + 1) S.length - i = (min (i + r + 1) S.length - i - 1) + 1 by omega]
    rw [List.range'_succ]
    simp
  rw [h2]
  apply List.find?_cons_of_pos
  have hget : S[i]? = some (S.get ⟨i, hi⟩) := by
    rw [List.getElem?_eq_getElem hi]
    rfl
  simp [hget, genesMatch_refl]

theorem jwMatchGo_diag (S : List Gene) (r : ℕ) :
    ∀ n k, k ≤ S.length → S.length - k = n →
      jwMatchGo S r (S.drop k) k (Finset.range k) =
        (Finset.range S.length, List.replicate (S.length - k) true) := by
  intro n
  induction n with
  | zero =>
    intro k hk hn
    have hk' : k = S.length := by omega
    subst hk'
    rw [List.drop_length]
    simp [jwMatchGo]
  | succ n ih =>
    intro k hk hn
    have hklt : k < S.length := by omega
    rw [List.drop_eq_getElem_cons hklt]
    have hget : S[k] = S.get ⟨k, hklt⟩ := rfl
    rw [show S.length - k = (S.length - (k + 1)) + 1 by omega, List.replicate_succ]
    simp only [jwMatchGo, hget, jwInner_diag S r k hklt]
    rw [← Finset.range_succ]
    rw [ih (k + 1) (by omega) (by omega)]

theorem jwTransGo_diag (S : List Gene) :
    ∀ n k, k ≤ S.length → S.length - k = n →
      jwTransGo S (List.replicate S.length true)
        ((S.drop k).zip (List.replicate (S.length - k) true)) k = 0 := by
  intro n
  induction n with
  | zero =>
    intro k hk hn
    have hk' : k = S.length := by omega
    subst hk'
    rw [List.drop_length]
    simp [jwTransGo]
  | succ n ih =>
    intro k hk hn
    have hklt : k < S.length := by omega
    rw [List.drop_eq_getElem_cons hklt]
    rw [show S.length - k = (S.length - (k + 1)) + 1 by omega, List.replicate_succ,
      List.zip_cons_cons]
    simp only [jwTransGo, if_true]
    have hdrop : (List.replicate S.length true).drop k =
        List.replicate (S.length - k) true := List.drop_replicate ..
    have hfind : ((List.replicate S.length true).drop k).findIdx (fun b => b) = 0 := by
      rw [hdrop, show S.length - k = (S.length - (k + 1)) + 1 by omega, List.replicate_succ]
      rw [List.findIdx_cons]
      simp
    rw [hfind, Nat.add_zero]
    have hget : S[k]? = some (S.get ⟨k, hklt⟩) := by
      rw [List.getElem?_eq_getElem hklt]
      rfl
    rw [hget]
    rw [ih (k + 1) (by omega) (by omega)]
    simp [genesMatch_refl]

theorem map_range_mem_range (n : ℕ) :
    (List.range n).map (fun j => decide (j ∈ Finset.range n)) = List.replicate n true := by
  refine List.eq_replicate_iff.mpr ⟨by simp, ?_⟩
  intro b hb
  rw [List.mem_map] at hb
  obtain ⟨j, hj, hb⟩ := hb
  rw [← hb]
  simp [Finset.mem_range, List.mem_range.mp hj]

/-- On identity the greedy matcher claims the diagonal, every prefix gene
matches positionally, and the Jaro-Winkler score is exactly 1. -/
theorem jaro_winkler_distance_self (g : Genome) (hne : g ≠ []) :
    jaro_winkler_distance g g = 1 := by
  have hlen : (g.take 20).length ≠ 0 := by
    rw [List.length_take]
    have : g.length ≠ 0 := fun hc => hne (List.length_eq_zero.mp hc)
    omega
  have hmatch := jwMatchGo_diag (g.take 20) (max (g.take 20).length (g.take 20).length / 2 - 1)
    ((g.take 20).length - 0) 0 (Nat.zero_le _) rfl
  rw [List.drop_zero] at hmatch
  simp only [Nat.sub_zero] at hmatch
  have htrans := jwTransGo_diag (g.take 20) ((g.take 20).length - 0) 0 (Nat.zero_le _) rfl
  rw [List.drop_zero] at htrans
  simp only [Nat.sub_zero] at htrans
  have hq : ((g.take 20).length : ℚ) ≠ 0 := by exact_mod_cast hlen
  simp only [jaro_winkler_distance]
  rw [if_neg (by omega : ¬((g.take 20).length = 0 ∨ (g.take 20).length = 0))]
  rw [← Finset.range_zero]
  simp only [hmatch, List.count_replicate_self]
  rw [if_neg hlen]
  simp only [map_range_mem_range, htrans]
  simp only [Nat.zero_div, Nat.cast_zero, sub_zero, div_self hq]
  norm_num

/-! ### Claim C1: self-similarity under the three methods -/

theorem hammingDistanceBits_self (g : Genome) (hne : g ≠ []) :
    hammingDistanceBits g g = .ok 1 := by
  rw [hammingDistanceBits_spec rfl hne]
  have hsum : ((g.zip g).map fun p => popCount (geneWord p.1 ^^^ geneWord p.2)).sum = 0 := by
    apply List.sum_eq_zero
    intro x hx
    rw [List.mem_map] at hx
    obtain ⟨p, hp, hx⟩ := hx
    rw [← hx, zip_self_eq g p hp, Nat.xor_self]
    exact popCount_zero
  rw [hsum]
  norm_num

theorem hammingDistanceBytes_self (g : Genome) (hne : g ≠ []) :
    hammingDistanceBytes g g = .ok (1 / 4) := by
  rw [hammingDistanceBytes_spec rfl hne]
  have hall : ∀ p ∈ g.zip g, (fun p : Gene × Gene => geneWord p.1 == geneWord p.2) p = true := by
    intro p hp
    simp only [zip_self_eq g p hp, beq_self_eq_true]
  have hcount : ((g.zip g).countP fun p => geneWord p.1 == geneWord p.2) = g.length := by
    rw [List.countP_eq_length.mpr hall, List.length_zip, min_self]
  rw [hcount]
  have hq : (g.length : ℚ) ≠ 0 := by
    have : g.length ≠ 0 := fun hc => hne (List.length_eq_zero.mp hc)
    exact_mod_cast this
  push_cast
  field_simp

/-- Claim C1 (corrected), counterexample: the single-gene genome `[gZero]`
compared with itself under method 2 scores `1/4`, not the claimed `1.0`. -/
theorem C1_counterexample :
    genomeSimilarity [gZero] [gZero] 2 = .ok (1 / 4) ∧ ((1 : ℚ) / 4) ≠ 1 := by
  exact ⟨rfl, by norm_num⟩

/-- Claim C1 (corrected): for every non-empty genome `g`, comparing `g`
with itself yields exactly `1.0` under methods 0 (approximate) and 1
(bit-level), but exactly `0.25` under method 2 (word-level), because the
word-level metric divides the per-gene match count by the byte length. -/
theorem C1_identity (g : Genome) (hne : g ≠ []) :
    genomeSimilarity g g 0 = .ok 1 ∧ genomeSimilarity g g 1 = .ok 1 ∧
      genomeSimilarity g g 2 = .ok (1 / 4) := by
  refine ⟨?_, ?_, ?_⟩
  · rw [genomeSimilarity_method0 rfl, jaro_winkler_distance_self g hne]
  · rw [genomeSimilarity_method1 rfl]
    exact hammingDistanceBits_self g hne
  · rw [genomeSimilarity_method2 rfl]
    exact hammingDistanceBytes_self g hne

/-- Witness for C1 at the non-empty genome `[gOnes]`. -/
theorem C1_witness :
    genomeSimilarity [gOnes] [gOnes] 0 = .ok 1 ∧
      genomeSimilarity [gOnes] [gOnes] 1 = .ok 1 ∧
      genomeSimilarity [gOnes] [gOnes] 2 = .ok (1 / 4) :=
  C1_identity [gOnes] (by decide)

/-! ### Claim C7: the bit-level metric's formula and its bounds -/

/-- Claim C7 (corrected): for non-empty equal-length genomes, method 1
returns `1 - min(1, 2 * differingBits / totalBits)` with `differingBits`
the popcount of the XOR of corresponding packed words and
`totalBits = numGenes * 32`; identical genomes score `1.0` and genomes
differing in every bit of every word score `0.0`.  (The claim's
quantification over *all* equal-length pairs fails: two empty genomes
reach the zero divisor instead of producing a value.) -/
theorem C7_bit_level_formula (g1 g2 : Genome)
    (hlen : g1.length = g2.length) (hne : g1 ≠ []) :
    genomeSimilarity g1 g2 1 =
        .ok (1 - min 1 (2 * ((((g1.zip g2).map fun p =>
            popCount (geneWord p.1 ^^^ geneWord p.2)).sum : ℕ) : ℚ) /
          ((g1.length * 32 : ℕ) : ℚ))) ∧
      (g1 = g2 → genomeSimilarity g1 g2 1 = .ok 1) ∧
      ((∀ p ∈ g1.zip g2, popCount (geneWord p.1 ^^^ geneWord p.2) = 32) →
        genomeSimilarity g1 g2 1 = .ok 0) := by
  refine ⟨?_, ?_, ?_⟩
  · rw [genomeSimilarity_method1 hlen]
    exact hammingDistanceBits_spec hlen hne
  · intro heq
    subst heq
    rw [genomeSimilarity_method1 rfl]
    exact hammingDistanceBits_self g1 hne
  · intro hall
    rw [genomeSimilarity_method1 hlen, hammingDistanceBits_spec hlen hne]
    have hmap : (g1.zip g2).map (fun p => popCount (geneWord p.1 ^^^ geneWord p.2)) =
        List.replicate (g1.length) 32 := by
      refine List.eq_replicate_iff.mpr ⟨?_, ?_⟩
      · rw [List.length_map, List.length_zip, hlen, min_self]
      · intro b hb
        rw [List.mem_map] at hb
        obtain ⟨p, hp, hb⟩ := hb
        rw [← hb]
        exact hall p hp
    rw [hmap, List.sum_replicate, smul_eq_mul]
    have hn : (0 : ℚ) < (g1.length : ℚ) := by
      have : 0 < g1.length := List.length_pos.mpr hne
      exact_mod_cast this
    have hformula : 2 * ((g1.length * 32 : ℕ) : ℚ) / ((g1.length * 32 : ℕ) : ℚ) = 2 := by
      rw [mul_div_assoc, div_self (by push_cast; positivity)]
      norm_num
    rw [hformula]
    norm_num

/-- Counterexample for C7 as literally stated: at the equal-length pair of
two empty genomes the code reaches the zero divisor and produces no value,
while the claim's formula (read with the rational convention `x / 0 = 0`)
would predict `1.0`. -/
theorem C7_counterexample :
    genomeSimilarity [] [] 1 = .error .divisionByZero ∧
      (Except.error SimError.divisionByZero : Except SimError ℚ) ≠
        .ok (1 - min 1 (2 * (0 : ℚ) / ((0 : ℚ) * 32))) := by
  exact ⟨rfl, by decide⟩

/-- Witness for C7: the all-bits-differ conjunct at `[gZero]` vs `[gOnes]`
(packed words `0` and `2^32 - 1`) yields similarity `0`. -/
theorem C7_witness : genomeSimilarity [gZero] [gOnes] 1 = .ok 0 :=
  (C7_bit_level_formula [gZero] [gOnes] (by decide) (by decide)).2.2 (by decide)

/-! ### Invariants of the matching and transposition loops -/

theorem jwMatchGo_flags_length (s : List Gene) (r : ℕ) :
    ∀ (a : List Gene) (i : ℕ) (c : Finset ℕ),
      (jwMatchGo s r a i c).2.length = a.length := by
  intro a
  induction a with
  | nil => intro i c; simp [jwMatchGo]
  | cons g rest ih =>
    intro i c
    cases hfind : jwInner s g (i - r) (min (i + r + 1) s.length) c with
    | none => simp [jwMatchGo, hfind, ih]
    | some j => simp [jwMatchGo, hfind, ih]

theorem jwInner_some {s : List Gene} {g : Gene} {lo hi : ℕ} {c : Finset ℕ} {j : ℕ}
    (h : jwInner s g lo hi c = some j) : j < s.length ∧ j ∉ c := by
  unfold jwInner at h
  have hpred := List.find?_some h
  rw [Bool.and_eq_true] at hpred
  obtain ⟨hany, hdec⟩ := hpred
  constructor
  · cases hj : s[j]? with
    | none => rw [hj] at hany; simp [Option.any] at hany
    | some x =>
      by_contra hlt
      rw [List.getElem?_eq_none (by omega)] at hj
      exact Option.noConfusion hj
  · exact of_decide_eq_true hdec

theorem jwMatchGo_claimed (s : List Gene) (r : ℕ) :
    ∀ (a : List Gene) (i : ℕ) (c : Finset ℕ), c ⊆ Finset.range s.length →
      (jwMatchGo s r a i c).1 ⊆ Finset.range s.length ∧
      (jwMatchGo s r a i c).1.card = c.card + (jwMatchGo s r a i c).2.count true := by
  intro a
  induction a with
  | nil => intro i c hc; simpa [jwMatchGo] using hc
  | cons g rest ih =>
    intro i c hc
    cases hfind : jwInner s g (i - r) (min (i + r + 1) s.length) c with
    | none =>
      have hih := ih (i + 1) c hc
      refine ⟨by simpa [jwMatchGo, hfind] using hih.1, ?_⟩
      simp only [jwMatchGo, hfind]
      rw [hih.2]
      simp [List.count_cons]
    | some j =>
      obtain ⟨hjlt, hjc⟩ := jwInner_some hfind
      have hc' : insert j c ⊆ Finset.range s.length :=
        Finset.insert_subset (Finset.mem_range.mpr hjlt) hc
      have hih := ih (i + 1) (insert j c) hc'
      refine ⟨by simpa [jwMatchGo, hfind] using hih.1, ?_⟩
      simp only [jwMatchGo, hfind]
      rw [hih.2, Finset.card_insert_of_not_mem hjc]
      simp [List.count_cons]
      omega

theorem jwTransGo_le (s : List Gene) (sflags : List Bool) :
    ∀ (L : List (Gene × Bool)) (l : ℕ),
      jwTransGo s sflags L l ≤ (L.map Prod.snd).count true := by
  intro L
  induction L with
  | nil => intro l; simp [jwTransGo]
  | cons p rest ih =>
    intro l
    obtain ⟨g, flag⟩ := p
    cases flag with
    | false => simpa [jwTransGo, List.count_cons] using ih l
    | true =>
      cases hsj : s[l + (sflags.drop l).findIdx (fun b => b)]? with
      | none =>
        simp only [jwTransGo, hsj, if_true]
        calc jwTransGo s sflags rest l ≤ (rest.map Prod.snd).count true := ih l
          _ ≤ _ := by simp [List.count_cons]
      | some x =>
        simp only [jwTransGo, hsj, if_true]
        have hone : (if genesMatch g x = true then 0 else 1) ≤ 1 := by split <;> norm_num
        calc (if genesMatch g x = true then 0 else 1) +
              jwTransGo s sflags rest (l + (sflags.drop l).findIdx (fun b => b) + 1)
            ≤ 1 + (rest.map Prod.snd).count true := add_le_add hone (ih _)
          _ ≤ _ := by simp [List.count_cons]; omega

/-- The Jaro-Winkler score is always within `[0, 1]`: arithmetic core. -/
theorem jaro_score_arith (sl al m t mp : ℕ)
    (hsl : m ≤ sl) (hal : m ≤ al) (hm : m ≠ 0) (ht : t ≤ m) :
    0 ≤ min (1 : ℚ)
        (((m : ℚ) / (sl : ℚ) + (m : ℚ) / (al : ℚ) + ((m : ℚ) - (t : ℚ)) / (m : ℚ)) / 3 +
          1 / 10 * (mp : ℚ) *
            (1 - ((m : ℚ) / (sl : ℚ) + (m : ℚ) / (al : ℚ) +
              ((m : ℚ) - (t : ℚ)) / (m : ℚ)) / 3)) ∧
      min (1 : ℚ)
        (((m : ℚ) / (sl : ℚ) + (m : ℚ) / (al : ℚ) + ((m : ℚ) - (t : ℚ)) / (m : ℚ)) / 3 +
          1 / 10 * (mp : ℚ) *
            (1 - ((m : ℚ) / (sl : ℚ) + (m : ℚ) / (al : ℚ) +
              ((m : ℚ) - (t : ℚ)) / (m : ℚ)) / 3)) ≤ 1 := by
  have hmq : (0 : ℚ) < (m : ℚ) := by exact_mod_cast Nat.pos_of_ne_zero hm
  have hslq : (0 : ℚ) < (sl : ℚ) := by
    have : 0 < sl := lt_of_lt_of_le (Nat.pos_of_ne_zero hm) hsl
    exact_mod_cast this
  have halq : (0 : ℚ) < (al : ℚ) := by
    have : 0 < al := lt_of_lt_of_le (Nat.pos_of_ne_zero hm) hal
    exact_mod_cast this
  have htq : (t : ℚ) ≤ (m : ℚ) := by exact_mod_cast ht
  have h1 : (m : ℚ) / (sl : ℚ) ≤ 1 := by
    rw [div_le_one hslq]; exact_mod_cast hsl
  have h2 : (m : ℚ) / (al : ℚ) ≤ 1 := by
    rw [div_le_one halq]; exact_mod_cast hal
  have h3 : ((m : ℚ) - (t : ℚ)) / (m : ℚ) ≤ 1 := by
    rw [div_le_one hmq]
    have : (0 : ℚ) ≤ (t : ℚ) := by positivity
    linarith
  have h1' : 0 ≤ (m : ℚ) / (sl : ℚ) := by positivity
  have h2' : 0 ≤ (m : ℚ) / (al : ℚ) := by positivity
  have h3' : 0 ≤ ((m : ℚ) - (t : ℚ)) / (m : ℚ) := div_nonneg (by linarith) (le_of_lt hmq)
  have hD0 : 0 ≤ ((m : ℚ) / (sl : ℚ) + (m : ℚ) / (al : ℚ) +
      ((m : ℚ) - (t : ℚ)) / (m : ℚ)) / 3 := by positivity
  have hD1 : ((m : ℚ) / (sl : ℚ) + (m : ℚ) / (al : ℚ) +
      ((m : ℚ) - (t : ℚ)) / (m : ℚ)) / 3 ≤ 1 := by linarith
  have hB : 0 ≤ 1 / 10 * (mp : ℚ) *
      (1 - ((m : ℚ) / (sl : ℚ) + (m : ℚ) / (al : ℚ) +
        ((m : ℚ) - (t : ℚ)) / (m : ℚ)) / 3) := by
    apply mul_nonneg (by positivity)
    linarith
  exact ⟨le_min (by norm_num) (by linarith), min_le_left _ _⟩

/-- The Jaro-Winkler score always lies in `[0, 1]`. -/
theorem jaro_winkler_distance_bounds (g1 g2 : Genome) :
    0 ≤ jaro_winkler_distance g1 g2 ∧ jaro_winkler_distance g1 g2 ≤ 1 := by
  simp only [jaro_winkler_distance]
  by_cases h0 : (g1.take 20).length = 0 ∨ (g2.take 20).length = 0
  · rw [if_pos h0]; norm_num
  · rw [if_neg h0]
    by_cases hm : (jwMatchGo (g1.take 20) (max (g1.take 20).length (g2.take 20).length / 2 - 1)
        (g2.take 20) 0 ∅).2.count true = 0
    · rw [if_pos hm]; norm_num
    · rw [if_neg hm]
      have hflen := jwMatchGo_flags_length (g1.take 20)
        (max (g1.take 20).length (g2.take 20).length / 2 - 1) (g2.take 20) 0 ∅
      have hclaim := jwMatchGo_claimed (g1.take 20)
        (max (g1.take 20).length (g2.take 20).length / 2 - 1) (g2.take 20) 0 ∅
        (by simp)
      have hmsl : (jwMatchGo (g1.take 20) (max (g1.take 20).length (g2.take 20).length / 2 - 1)
          (g2.take 20) 0 ∅).2.count true ≤ (g1.take 20).length := by
        have hcard := Finset.card_le_card hclaim.1
        rw [Finset.card_range] at hcard
        rw [hclaim.2] at hcard
        simpa using hcard
      have hmal : (jwMatchGo (g1.take 20) (max (g1.take 20).length (g2.take 20).length / 2 - 1)
          (g2.take 20) 0 ∅).2.count true ≤ (g2.take 20).length := by
        calc (jwMatchGo (g1.take 20) (max (g1.take 20).length (g2.take 20).length / 2 - 1)
              (g2.take 20) 0 ∅).2.count true
            ≤ (jwMatchGo (g1.take 20) (max (g1.take 20).length (g2.take 20).length / 2 - 1)
              (g2.take 20) 0 ∅).2.length := by apply List.count_le_length
          _ = (g2.take 20).length := hflen
      have hmap : ((g2.take 20).zip (jwMatchGo (g1.take 20)
          (max (g1.take 20).length (g2.take 20).length / 2 - 1)
          (g2.take 20) 0 ∅).2).map Prod.snd =
          (jwMatchGo (g1.take 20) (max (g1.take 20).length (g2.take 20).length / 2 - 1)
            (g2.take 20) 0 ∅).2 :=
        List.map_snd_zip _ _ (le_of_eq hflen)
      have ht : jwTransGo (g1.take 20)
          ((List.range (g1.take 20).length).map fun j => decide (j ∈ (jwMatchGo (g1.take 20)
            (max (g1.take 20).length (g2.take 20).length / 2 - 1) (g2.take 20) 0 ∅).1))
          ((g2.take 20).zip (jwMatchGo (g1.take 20)
            (max (g1.take 20).length (g2.take 20).length / 2 - 1) (g2.take 20) 0 ∅).2) 0 / 2 ≤
          (jwMatchGo (g1.take 20) (max (g1.take 20).length (g2.take 20).length / 2 - 1)
            (g2.take 20) 0 ∅).2.count true := by
        refine le_trans (Nat.div_le_self _ 2) ?_
        refine le_trans (jwTransGo_le _ _ _ _) ?_
        rw [hmap]
      exact jaro_score_arith _ _ _ _ _ hmsl hmal hm ht

/-! ### Claim C3: all returned similarity values lie in [0, 1] -/

/-- Claim C3 (confirmed): whenever `genomeSimilarity` returns a value
(rather than failing), that value lies in the closed interval `[0, 1]` —
on the unequal-length path because both the approximate score and the
length ratio lie in `[0, 1]` and the blend weights sum to 1, and on the
equal-length path by the clamps of the individual metrics. -/
theorem C3_range (g1 g2 : Genome) (method : ℤ) (q : ℚ)
    (hq : genomeSimilarity g1 g2 method = .ok q) : 0 ≤ q ∧ q ≤ 1 := by
  obtain ⟨hj0, hj1⟩ := jaro_winkler_distance_bounds g1 g2
  by_cases hlen : g1.length = g2.length
  · by_cases h0 : method = 0
    · subst h0
      rw [genomeSimilarity_method0 hlen] at hq
      simp only [Except.ok.injEq] at hq
      subst hq
      exact ⟨hj0, hj1⟩
    · by_cases h1 : method = 1
      · subst h1
        rw [genomeSimilarity_method1 hlen] at hq
        rw [hammingDistanceBits] at hq
        rw [if_pos hlen] at hq
        by_cases hz : g1.length * 32 = 0
        · rw [if_pos hz] at hq
          exact absurd hq (by simp)
        · rw [if_neg hz] at hq
          simp only [Except.ok.injEq] at hq
          subst hq
          have hx : (0 : ℚ) ≤ 2 * ((((g1.zip g2).map fun p =>
              popCount (geneWord p.1 ^^^ geneWord p.2)).sum : ℕ) : ℚ) /
              ((g1.length * 32 : ℕ) : ℚ) := by positivity
          constructor
          · linarith [min_le_left (1 : ℚ) (2 * ((((g1.zip g2).map fun p =>
                popCount (geneWord p.1 ^^^ geneWord p.2)).sum : ℕ) : ℚ) /
                ((g1.length * 32 : ℕ) : ℚ))]
          · have : (0 : ℚ) ≤ min 1 (2 * ((((g1.zip g2).map fun p =>
                popCount (geneWord p.1 ^^^ geneWord p.2)).sum : ℕ) : ℚ) /
                ((g1.length * 32 : ℕ) : ℚ)) := le_min (by norm_num) hx
            linarith
      · by_cases h2 : method = 2
        · subst h2
          rw [genomeSimilarity_method2 hlen] at hq
          rw [hammingDistanceBytes] at hq
          rw [if_pos hlen] at hq
          by_cases hz : g1.length * 4 = 0
          · rw [if_pos hz] at hq
            exact absurd hq (by simp)
          · rw [if_neg hz] at hq
            simp only [Except.ok.injEq] at hq
            subst hq
            have hpos : (0 : ℚ) < ((g1.length * 4 : ℕ) : ℚ) := by
              exact_mod_cast Nat.pos_of_ne_zero hz
            constructor
            · positivity
            · rw [div_le_one hpos]
              have hc : ((g1.zip g2).countP fun p => geneWord p.1 == geneWord p.2) ≤
                  g1.length * 4 := by
                refine le_trans (List.countP_le_length _) ?_
                rw [List.length_zip, hlen, min_self]
                omega
              exact_mod_cast hc
        · rw [genomeSimilarity_method_bad hlen h0 h1 h2] at hq
          exact absurd hq (by simp)
  · rw [genomeSimilarity_of_len_ne method hlen] at hq
    simp only [Except.ok.injEq] at hq
    subst hq
    have hmaxpos : (0 : ℚ) < max (g1.length : ℚ) (g2.length : ℚ) := by
      have : g1.length ≠ 0 ∨ g2.length ≠ 0 := by omega
      rcases this with h | h
      · exact lt_max_of_lt_left (by exact_mod_cast Nat.pos_of_ne_zero h)
      · exact lt_max_of_lt_right (by exact_mod_cast Nat.pos_of_ne_zero h)
    have hr0 : (0 : ℚ) ≤ min (g1.length : ℚ) (g2.length : ℚ) /
        max (g1.length : ℚ) (g2.length : ℚ) := by
      apply div_nonneg _ (le_of_lt hmaxpos)
      exact le_min (by positivity) (by positivity)
    have hr1 : min (g1.length : ℚ) (g2.length : ℚ) /
        max (g1.length : ℚ) (g2.length : ℚ) ≤ 1 := by
      rw [div_le_one hmaxpos]
      exact min_le_max
    constructor <;> nlinarith

/-- Witness for C3 at `([gZero], [gZero], method 0)`, which returns 1. -/
theorem C3_witness : (0 : ℚ) ≤ 1 ∧ (1 : ℚ) ≤ 1 :=
  C3_range [gZero] [gZero] 0 1
    (by rw [genomeSimilarity_method0 rfl, jaro_winkler_distance_self [gZero] (by decide)])

/-! ### Claim C6: the diversity estimator -/

theorem foldlM_sim_ok (f : ℕ → Except SimError ℚ) (sims : ℕ → ℚ) :
    ∀ (l : List ℕ), (∀ k ∈ l, f k = .ok (sims k)) → ∀ (init : ℚ),
      l.foldlM (fun acc k => (f k).map fun sim => acc + sim) init =
        .ok (init + (l.map sims).sum) := by
  intro l
  induction l with
  | nil => intro _ init; simp [pure, Except.pure]
  | cons k rest ih =>
    intro h init
    rw [List.foldlM_cons, h k (List.mem_cons_self k rest)]
    have hrest : ∀ j ∈ rest, f j = .ok (sims j) :=
      fun j hj => h j (List.mem_cons_of_mem k hj)
    simp only [Except.map, List.map_cons, List.sum_cons]
    calc rest.foldlM (fun acc j => (f j).map fun sim => acc + sim) (init + sims k) =
        .ok ((init + sims k) + (rest.map sims).sum) := ih hrest (init + sims k)
      _ = .ok (init + (sims k + (rest.map sims).sum)) := by rw [add_assoc]

theorem sum_map_range_eq (f : ℕ → ℚ) :
    ∀ n, ((List.range n).map f).sum = ∑ k in Finset.range n, f k := by
  intro n
  induction n with
  | zero => simp
  | succ n ih =>
    rw [List.range_succ, List.map_append, List.sum_append, Finset.sum_range_succ, ih]
    simp

/-- Claim C6 (confirmed): `geneticDiversity` returns 0 when the population
size is below 2; otherwise it runs exactly `min(1000, N)` iterations, the
`k`-th comparing the adjacent genomes at indices `draws k` and
`draws k + 1`, and returns `1 - accumulatedSimilarity / sampleBudget`
(stated for an arbitrary sequence of external random draws). -/
theorem C6_diversity_estimator (population : ℕ) (peeps : ℕ → Genome) (method : ℤ)
    (draws : ℕ → ℕ) (sims : ℕ → ℚ) :
    (population < 2 → geneticDiversity population peeps method draws = .ok 0) ∧
      (2 ≤ population →
        (∀ k < min 1000 population,
          genomeSimilarity (peeps (draws k)) (peeps (draws k + 1)) method = .ok (sims k)) →
        geneticDiversity population peeps method draws =
          .ok (1 - (∑ k in Finset.range (min 1000 population), sims k) /
            ((min 1000 population : ℕ) : ℚ))) := by
  constructor
  · intro h
    simp [geneticDiversity, h]
  · intro h hok
    have hfold := foldlM_sim_ok
      (fun k => genomeSimilarity (peeps (draws k)) (peeps (draws k + 1)) method) sims
      (List.range (min 1000 population))
      (fun k hk => hok k (List.mem_range.mp hk)) 0
    simp only [geneticDiversity, if_neg (by omega : ¬population < 2)]
    rw [hfold, zero_add, sum_map_range_eq]

/-- Witness for C6 at a population of 2 identical genomes, method 0 and a
constant draw sequence: two iterations of similarity 1 give diversity 0. -/
theorem C6_witness :
    geneticDiversity 2 (fun _ => [gZero]) 0 (fun _ => 1) = .ok 0 := by
  have h := (C6_diversity_estimator 2 (fun _ => [gZero]) 0 (fun _ => 1) (fun _ => 1)).2
    (by norm_num)
    (fun k _ => by
      rw [genomeSimilarity_method0 rfl, jaro_winkler_distance_self [gZero] (by decide)])
  rw [h]
  norm_num [Finset.sum_const]

/-! ### Symmetry of the greedy matcher: the two-pointer normal form

The windowed greedy matching loop processes one genome's positions in
order, claiming for each the first unclaimed matching position of the
other genome inside a symmetric window.  Because `genesMatch` is an
equivalence (it is equality of all five fields), the claims of distinct
gene values never interact, and per gene value the loop reduces to the
manifestly symmetric two-pointer matcher `match2p` below. -/

/-- Two-pointer matching of two ascending position lists: heads within
distance `r` are matched; otherwise the smaller head can never match
again and is dropped. -/
def match2p (r : ℕ) : List ℕ → List ℕ → List (ℕ × ℕ)
  | [], _ => []
  | _ :: _, [] => []
  | i :: is, j :: js =>
    if i ≤ j + r ∧ j ≤ i + r then (i, j) :: match2p r is js
    else if i < j then match2p r is (j :: js)
    else match2p r (i :: is) js
termination_by l1 l2 => l1.length + l2.length
decreasing_by all_goals simp_arith

theorem match2p_swap (r : ℕ) :
    ∀ (n : ℕ) (A S : List ℕ), A.length + S.length ≤ n →
      match2p r S A = (match2p r A S).map Prod.swap := by
  intro n
  induction n with
  | zero =>
    intro A S h
    have hA : A = [] := List.length_eq_zero.mp (by omega)
    have hS : S = [] := List.length_eq_zero.mp (by omega)
    subst hA; subst hS
    simp [match2p]
  | succ n ih =>
    intro A S h
    cases A with
    | nil =>
      cases S with
      | nil => simp [match2p]
      | cons j js => simp [match2p]
    | cons i is =>
      cases S with
      | nil => simp [match2p]
      | cons j js =>
        by_cases hw : i ≤ j + r ∧ j ≤ i + r
        · have hw' : j ≤ i + r ∧ i ≤ j + r := ⟨hw.2, hw.1⟩
          rw [match2p, if_pos hw', match2p, if_pos hw]
          simp only [List.map_cons, Prod.swap_prod_mk]
          rw [ih is js (by simp at h ⊢; omega)]
        · have hw' : ¬(j ≤ i + r ∧ i ≤ j + r) := fun hc => hw ⟨hc.2, hc.1⟩
          rcases Nat.lt_trichotomy i j with hij | hij | hij
          · rw [match2p, if_neg hw', if_neg (by omega), match2p, if_neg hw, if_pos hij]
            exact ih is (j :: js) (by simp at h ⊢; omega)
          · exact absurd ⟨by omega, by omega⟩ hw
          · rw [match2p, if_neg hw', if_pos hij, match2p, if_neg hw, if_neg (by omega)]
            exact ih (i :: is) js (by simp at h ⊢; omega)

theorem match2p_fst_mem (r : ℕ) :
    ∀ (n : ℕ) (A S : List ℕ), A.length + S.length ≤ n →
      ∀ p ∈ match2p r A S, p.1 ∈ A ∧ p.2 ∈ S := by
  intro n
  induction n with
  | zero =>
    intro A S h
    have hA : A = [] := List.length_eq_zero.mp (by omega)
    subst hA
    simp [match2p]
  | succ n ih =>
    intro A S h
    cases A with
    | nil => simp [match2p]
    | cons i is =>
      cases S with
      | nil => simp [match2p]
      | cons j js =>
        by_cases hw : i ≤ j + r ∧ j ≤ i + r
        · rw [match2p, if_pos hw]
          intro p hp
          rcases List.mem_cons.mp hp with hp | hp
          · subst hp; simp
          · have := ih is js (by simp at h ⊢; omega) p hp
            exact ⟨List.mem_cons_of_mem _ this.1, List.mem_cons_of_mem _ this.2⟩
        · rw [match2p, if_neg hw]
          by_cases hij : i < j
          · rw [if_pos hij]
            intro p hp
            have := ih is (j :: js) (by simp at h ⊢; omega) p hp
            exact ⟨List.mem_cons_of_mem _ this.1, this.2⟩
          · rw [if_neg hij]
            intro p hp
            have := ih (i :: is) js (by simp at h ⊢; omega) p hp
            exact ⟨this.1, List.mem_cons_of_mem _ this.2⟩

/-! ### `find?` on sorted lists -/

theorem find?_some_sorted_iff {l : List ℕ} (hl : l.Sorted (· < ·)) {p : ℕ → Bool} {x : ℕ} :
    l.find? p = some x ↔ x ∈ l ∧ p x = true ∧ ∀ y ∈ l, y < x → p y = false := by
  induction l with
  | nil => simp
  | cons a l ih =>
    have hl' : l.Sorted (· < ·) := hl.of_cons
    have ha : ∀ y ∈ l, a < y := List.rel_of_sorted_cons hl
    by_cases hpa : p a = true
    · rw [List.find?_cons_of_pos _ hpa]
      constructor
      · intro h
        have hxa : a = x := by injection h
        subst hxa
        refine ⟨List.mem_cons_self _ _, hpa, ?_⟩
        intro y hy hlt
        rcases List.mem_cons.mp hy with hy | hy
        · omega
        · exact absurd hlt (by have := ha y hy; omega)
      · rintro ⟨hmem, hpx, hmin⟩
        rcases List.mem_cons.mp hmem with hx | hx
        · rw [hx]
        · have := hmin a (List.mem_cons_self _ _) (ha x hx)
          rw [this] at hpa
          exact absurd hpa (by simp)
    · rw [List.find?_cons_of_neg _ hpa, ih hl']
      constructor
      · rintro ⟨hm, hp, hmin⟩
        refine ⟨List.mem_cons_of_mem _ hm, hp, ?_⟩
        intro y hy hlt
        rcases List.mem_cons.mp hy with hy | hy
        · subst hy
          exact Bool.not_eq_true _ ▸ (by simpa using hpa)
        · exact hmin y hy hlt
      · rintro ⟨hm, hp, hmin⟩
        rcases List.mem_cons.mp hm with hx | hx
        · subst hx
          exact absurd hp hpa
        · exact ⟨hx, hp, fun y hy hlt => hmin y (List.mem_cons_of_mem _ hy) hlt⟩

theorem find?_congr_sorted {l l' : List ℕ}
    (hl : l.Sorted (· < ·)) (hl' : l'.Sorted (· < ·)) {p q : ℕ → Bool}
    (h : ∀ x, (x ∈ l ∧ p x = true) ↔ (x ∈ l' ∧ q x = true)) :
    l.find? p = l'.find? q := by
  cases hfp : l.find? p with
  | none =>
    symm
    rw [List.find?_eq_none] at hfp ⊢
    intro x hx hqx
    have := (h x).mpr ⟨hx, hqx⟩
    exact hfp x this.1 this.2
  | some x =>
    obtain ⟨hm, hp, hmin⟩ := (find?_some_sorted_iff hl).mp hfp
    symm
    rw [find?_some_sorted_iff hl']
    obtain ⟨hm', hq⟩ := (h x).mp ⟨hm, hp⟩
    refine ⟨hm', hq, ?_⟩
    intro y hy hlt
    by_contra hqy
    rw [Bool.not_eq_false] at hqy
    have hyl := (h y).mpr ⟨hy, hqy⟩
    have hpf := hmin y hyl.1 hlt
    rw [hyl.2] at hpf
    exact absurd hpf (by simp)

theorem find?_congr_mem {l : List ℕ} {p q : ℕ → Bool}
    (h : ∀ x ∈ l, p x = q x) : l.find? p = l.find? q := by
  induction l with
  | nil => rfl
  | cons a l ih =>
    by_cases hpa : p a = true
    · rw [List.find?_cons_of_pos _ hpa,
        List.find?_cons_of_pos _ (by rw [← h a (List.mem_cons_self _ _)]; exact hpa)]
    · rw [List.find?_cons_of_neg _ hpa,
        List.find?_cons_of_neg _ (by rw [← h a (List.mem_cons_self _ _)]; exact hpa)]
      exact ih fun x hx => h x (List.mem_cons_of_mem _ hx)

/-- The pair list contributed by one more left position: a singleton when
the search finds a partner, nothing otherwise. -/
def optPair (i : ℕ) (o : Option ℕ) : List (ℕ × ℕ) :=
  match o with
  | some j => [(i, j)]
  | none => []

theorem match2p_cons_cons (r i j : ℕ) (is js : List ℕ) :
    match2p r (i :: is) (j :: js) =
      if i ≤ j + r ∧ j ≤ i + r then (i, j) :: match2p r is js
      else if i < j then match2p r is (j :: js)
      else match2p r (i :: is) js := by
  rw [match2p]

theorem match2p_single (r i : ℕ) :
    ∀ (S : List ℕ), S.Sorted (· < ·) →
      match2p r [i] S =
        optPair i (S.find? fun j => decide (i ≤ j + r) && decide (j ≤ i + r)) := by
  intro S
  induction S with
  | nil => intro _; simp [match2p, optPair]
  | cons j js ih =>
    intro hs
    have hs' : js.Sorted (· < ·) := hs.of_cons
    have hjs : ∀ y ∈ js, j < y := List.rel_of_sorted_cons hs
    by_cases hw : i ≤ j + r ∧ j ≤ i + r
    · rw [match2p, if_pos hw, List.find?_cons_of_pos _ (by simp [hw.1, hw.2])]
      simp [match2p, optPair]
    · rw [match2p, if_neg hw,
        List.find?_cons_of_neg _ (by
          simp only [Bool.and_eq_true, decide_eq_true_eq]
          omega)]
      by_cases hij : i < j
      · rw [if_pos hij]
        have hnone : js.find? (fun j => decide (i ≤ j + r) && decide (j ≤ i + r)) = none := by
          rw [List.find?_eq_none]
          intro y hy
          have := hjs y hy
          simp only [Bool.and_eq_true, decide_eq_true_eq]
          omega
        rw [hnone]
        simp [match2p, optPair]
      · rw [if_neg hij]
        exact ih hs'

theorem match2p_snoc (r : ℕ) :
    ∀ (n : ℕ) (A S : List ℕ) (i : ℕ), A.length + S.length ≤ n →
      S.Sorted (· < ·) → (∀ a ∈ A, a < i) →
      match2p r (A ++ [i]) S =
        match2p r A S ++
          optPair i (S.find? fun j =>
            decide (j ∉ (match2p r A S).map Prod.snd) &&
              (decide (i ≤ j + r) && decide (j ≤ i + r))) := by
  intro n
  induction n with
  | zero =>
    intro A S i h _ _
    have hA : A = [] := List.length_eq_zero.mp (by omega)
    have hS : S = [] := List.length_eq_zero.mp (by omega)
    subst hA; subst hS
    simp [match2p, optPair]
  | succ n ih =>
    intro A S i h hS hA
    cases A with
    | nil =>
      have h0 : match2p r [] S = [] := by rw [match2p]
      rw [List.nil_append, match2p_single r i S hS, h0, List.nil_append]
      apply congrArg (optPair i)
      apply find?_congr_mem
      intro x _
      simp
    | cons a A' =>
      cases S with
      | nil =>
        have h1 : match2p r (a :: (A' ++ [i])) [] = [] := by rw [match2p]
        have h2 : match2p r (a :: A') [] = [] := by rw [match2p]
        rw [show (a :: A') ++ [i] = a :: (A' ++ [i]) from rfl, h1, h2]
        simp [optPair]
      | cons j js =>
        have hS' : js.Sorted (· < ·) := hS.of_cons
        have hjs : ∀ y ∈ js, j < y := List.rel_of_sorted_cons hS
        have hai : a < i := hA a (List.mem_cons_self _ _)
        have hA' : ∀ x ∈ A', x < i := fun x hx => hA x (List.mem_cons_of_mem _ hx)
        rw [show (a :: A') ++ [i] = a :: (A' ++ [i]) from rfl]
        by_cases hw : a ≤ j + r ∧ j ≤ a + r
        · have hm1 : match2p r (a :: (A' ++ [i])) (j :: js) =
              (a, j) :: match2p r (A' ++ [i]) js := by
            rw [match2p_cons_cons, if_pos hw]
          have hm2 : match2p r (a :: A') (j :: js) = (a, j) :: match2p r A' js := by
            rw [match2p_cons_cons, if_pos hw]
          rw [hm1, hm2, ih A' js i (by simp at h ⊢; omega) hS' hA', List.cons_append]
          congr 1
          congr 1
          apply congrArg (optPair i)
          symm
          rw [List.find?_cons_of_neg _ (by simp)]
          apply find?_congr_mem
          intro x hx
          have hxj : j < x := hjs x hx
          have hiff : (x ∉ ((a, j) :: match2p r A' js).map Prod.snd) ↔
              (x ∉ (match2p r A' js).map Prod.snd) := by
            rw [List.map_cons, List.mem_cons]
            constructor
            · intro hnot hmem; exact hnot (Or.inr hmem)
            · intro hnot hmem
              rcases hmem with hmem | hmem
              · simp at hmem; omega
              · exact hnot hmem
          rw [decide_eq_decide.mpr hiff]
        · by_cases hij : a < j
          · have hm1 : match2p r (a :: (A' ++ [i])) (j :: js) =
                match2p r (A' ++ [i]) (j :: js) := by
              rw [match2p_cons_cons, if_neg hw, if_pos hij]
            have hm2 : match2p r (a :: A') (j :: js) = match2p r A' (j :: js) := by
              rw [match2p_cons_cons, if_neg hw, if_pos hij]
            rw [hm1, hm2]
            exact ih A' (j :: js) i (by simp at h ⊢; omega) hS hA'
          · have hja : j < a := by
              rcases Nat.lt_trichotomy a j with hc | hc | hc
              · omega
              · exact absurd ⟨by omega, by omega⟩ hw
              · omega
            have hm1 : match2p r (a :: (A' ++ [i])) (j :: js) =
                match2p r (a :: (A' ++ [i])) js := by
              rw [match2p_cons_cons, if_neg hw, if_neg hij]
            have hm2 : match2p r (a :: A') (j :: js) = match2p r (a :: A') js := by
              rw [match2p_cons_cons, if_neg hw, if_neg hij]
            rw [hm1, hm2]
            have hrec := ih (a :: A') js i (by simp at h ⊢; omega) hS' hA
            rw [List.cons_append] at hrec
            rw [hrec]
            congr 1
            apply congrArg (optPair i)
            symm
            rw [List.find?_cons_of_neg _ (by
              have hni : ¬(i ≤ j + r) := by omega
              simp [hni])]

/-- Positions below `n` holding gene value `v`. -/
def classPosLt (l : List Gene) (v : Gene) (n : ℕ) : List ℕ :=
  (List.range n).filter fun k => decide (l[k]? = some v)

/-- All positions of `l` holding gene value `v`. -/
def classPos (l : List Gene) (v : Gene) : List ℕ := classPosLt l v l.length

theorem classPosLt_sorted (l : List Gene) (v : Gene) (n : ℕ) :
    (classPosLt l v n).Sorted (· < ·) :=
  (List.pairwise_lt_range n).filter _

theorem classPosLt_mem {l : List Gene} {v : Gene} {n k : ℕ} :
    k ∈ classPosLt l v n ↔ k < n ∧ l[k]? = some v := by
  simp [classPosLt, List.mem_filter, List.mem_range]

theorem classPosLt_bound {l : List Gene} {v : Gene} {n : ℕ} :
    ∀ x ∈ classPosLt l v n, x < n :=
  fun _ hx => (classPosLt_mem.mp hx).1

theorem classPosLt_succ (l : List Gene) (v : Gene) (n : ℕ) :
    classPosLt l v (n + 1) =
      classPosLt l v n ++ (if l[n]? = some v then [n] else []) := by
  rw [classPosLt, List.range_succ, List.filter_append]
  congr 1
  simp [List.filter_singleton]

theorem jwInner_eq_find (s : List Gene) (g : Gene) (n r : ℕ) (c : Finset ℕ) :
    jwInner s g (n - r) (min (n + r + 1) s.length) c =
      (List.range s.length).find? fun j =>
        decide (s[j]? = some g) && decide (j ∉ c) &&
          (decide (n ≤ j + r) && decide (j ≤ n + r)) := by
  unfold jwInner
  apply find?_congr_sorted
  · rw [List.range'_eq_map_range]
    exact (List.pairwise_lt_range _).map _ (fun a b hab => by omega)
  · exact List.pairwise_lt_range _
  intro x
  constructor
  · rintro ⟨hmem, hpred⟩
    rw [List.mem_range'_1] at hmem
    rw [Bool.and_eq_true] at hpred
    obtain ⟨hany, hnotc⟩ := hpred
    have hwin : n - r ≤ x ∧ x < min (n + r + 1) s.length := by omega
    have hxlen : x < s.length := by omega
    have hsx : s[x]? = some g := by
      cases hget : s[x]? with
      | none => rw [hget] at hany; simp [Option.any] at hany
      | some y =>
        rw [hget] at hany
        simp only [Option.any_some] at hany
        rw [← (genesMatch_iff g y).mp hany]
    refine ⟨List.mem_range.mpr hxlen, ?_⟩
    simp only [Bool.and_eq_true, decide_eq_true_eq]
    exact ⟨⟨hsx, of_decide_eq_true hnotc⟩, by omega, by omega⟩
  · rintro ⟨hmem, hpred⟩
    rw [List.mem_range] at hmem
    simp only [Bool.and_eq_true, decide_eq_true_eq] at hpred
    obtain ⟨⟨hsx, hnotc⟩, hw1, hw2⟩ := hpred
    refine ⟨?_, ?_⟩
    · rw [List.mem_range'_1]
      omega
    · rw [Bool.and_eq_true]
      refine ⟨?_, by simpa using hnotc⟩
      rw [hsx]
      simp only [Option.any_some]
      exact genesMatch_refl g

theorem jwInner_eq_classPos_find (s : List Gene) (g : Gene) (n r : ℕ) (c : Finset ℕ)
    (snds : List ℕ) (hsnds : ∀ j, s[j]? = some g → (j ∈ c ↔ j ∈ snds)) :
    jwInner s g (n - r) (min (n + r + 1) s.length) c =
      (classPos s g).find? fun j =>
        decide (j ∉ snds) && (decide (n ≤ j + r) && decide (j ≤ n + r)) := by
  rw [jwInner_eq_find]
  apply find?_congr_sorted (List.pairwise_lt_range _) (classPosLt_sorted s g s.length)
  intro x
  simp only [List.mem_range, Bool.and_eq_true, decide_eq_true_eq]
  constructor
  · rintro ⟨hxlen, ⟨hsx, hxc⟩, hw⟩
    exact ⟨classPosLt_mem.mpr ⟨hxlen, hsx⟩, fun hmem => hxc ((hsnds x hsx).mpr hmem), hw⟩
  · rintro ⟨hmem, hxs, hw⟩
    obtain ⟨hxlen, hsx⟩ := classPosLt_mem.mp hmem
    exact ⟨hxlen, ⟨hsx, fun hc => hxs ((hsnds x hsx).mp hc)⟩, hw⟩

theorem classPosLt_succ_ne {a : List Gene} {v : Gene} {n : ℕ} (hv : ¬a[n]? = some v) :
    classPosLt a v (n + 1) = classPosLt a v n := by
  rw [classPosLt_succ, if_neg hv, List.append_nil]

theorem match2p_classPosLt_succ (s a : List Gene) (r : ℕ) (v : Gene) (n : ℕ)
    (hv : a[n]? = some v) :
    match2p r (classPosLt a v (n + 1)) (classPos s v) =
      match2p r (classPosLt a v n) (classPos s v) ++
        optPair n ((classPos s v).find? fun j =>
          decide (j ∉ (match2p r (classPosLt a v n) (classPos s v)).map Prod.snd) &&
            (decide (n ≤ j + r) && decide (j ≤ n + r))) := by
  rw [classPosLt_succ, if_pos hv]
  exact match2p_snoc r ((classPosLt a v n).length + (classPos s v).length)
    (classPosLt a v n) (classPos s v) n (le_refl _)
    (classPosLt_sorted s v s.length) (fun x hx => classPosLt_bound x hx)

theorem match2p_classPosLt_fst_lt (s a : List Gene) (r : ℕ) (v : Gene) (n : ℕ) :
    ∀ x ∈ (match2p r (classPosLt a v n) (classPos s v)).map Prod.fst, x < n := by
  intro x hx
  rw [List.mem_map] at hx
  obtain ⟨p, hp, hx⟩ := hx
  have hmem := match2p_fst_mem r ((classPosLt a v n).length + (classPos s v).length)
    (classPosLt a v n) (classPos s v) (le_refl _) p hp
  rw [← hx]
  exact classPosLt_bound _ hmem.1

theorem optPair_fst {i : ℕ} {o : Option ℕ} {x : ℕ}
    (hx : x ∈ (optPair i o).map Prod.fst) : x = i := by
  cases o with
  | none => simp [optPair] at hx
  | some j => simpa [optPair] using hx

theorem match2p_classPosLt_fst_stable (s a : List Gene) (r : ℕ) (v : Gene)
    (m : ℕ) : ∀ (n : ℕ), m ≤ n → ∀ x, x < m →
      (x ∈ (match2p r (classPosLt a v m) (classPos s v)).map Prod.fst ↔
        x ∈ (match2p r (classPosLt a v n) (classPos s v)).map Prod.fst) := by
  intro n
  induction n with
  | zero => intro hmn x hx; interval_cases m; rfl
  | succ n ihn =>
    intro hmn x hx
    rcases Nat.lt_or_ge m (n + 1) with hlt | hge
    · have hmn' : m ≤ n := by omega
      rw [ihn hmn' x hx]
      by_cases hv : a[n]? = some v
      · rw [match2p_classPosLt_succ s a r v n hv, List.map_append, List.mem_append]
        constructor
        · exact Or.inl
        · rintro (h | h)
          · exact h
          · have := optPair_fst h
            omega
      · rw [classPosLt_succ_ne hv]
    · have : m = n + 1 := by omega
      subst this
      rfl

theorem jwMatchGo_bridge (s a : List Gene) (r : ℕ) :
    ∀ (rest : List Gene) (n : ℕ) (c : Finset ℕ),
      rest = a.drop n → n ≤ a.length →
      (∀ v j, s[j]? = some v →
        (j ∈ c ↔ j ∈ (match2p r (classPosLt a v n) (classPos s v)).map Prod.snd)) →
      (∀ v j, s[j]? = some v →
        (j ∈ (jwMatchGo s r rest n c).1 ↔
          j ∈ (match2p r (classPosLt a v a.length) (classPos s v)).map Prod.snd)) ∧
      (∀ k, k < rest.length →
        ((jwMatchGo s r rest n c).2.getD k false = true ↔
          ∃ v, a[n + k]? = some v ∧
            (n + k) ∈ (match2p r (classPosLt a v (n + k + 1)) (classPos s v)).map Prod.fst)) := by
  intro rest
  induction rest with
  | nil =>
    intro n c hrest hn hInv
    have hlen : a.length ≤ n := by
      by_contra hc
      push_neg at hc
      have hd := List.drop_eq_getElem_cons hc
      rw [← hrest] at hd
      exact List.noConfusion hd
    have hna : n = a.length := le_antisymm hn hlen
    subst hna
    constructor
    · intro v j hj
      simpa [jwMatchGo] using hInv v j hj
    · intro k hk
      simp at hk
  | cons g rest' ih =>
    intro n c hrest hn hInv
    have hnlt : n < a.length := by
      by_contra hc
      push_neg at hc
      rw [List.drop_eq_nil_of_le hc] at hrest
      exact List.noConfusion hrest
    have hcons : g :: rest' = a[n] :: a.drop (n + 1) :=
      hrest.trans (List.drop_eq_getElem_cons hnlt)
    have hg : g = a[n] := by injection hcons
    have hrest2 : rest' = a.drop (n + 1) := by injection hcons with _ h
    have han : a[n]? = some g := by
      rw [List.getElem?_eq_getElem hnlt, hg]
    have hinner := jwInner_eq_classPos_find s g n r c
      ((match2p r (classPosLt a g n) (classPos s g)).map Prod.snd)
      (fun j hj => hInv g j hj)
    cases hfind : (classPos s g).find? (fun j =>
        decide (j ∉ (match2p r (classPosLt a g n) (classPos s g)).map Prod.snd) &&
          (decide (n ≤ j + r) && decide (j ≤ n + r))) with
    | none =>
      have hinner' : jwInner s g (n - r) (min (n + r + 1) s.length) c = none := by
        rw [hinner, hfind]
      have hm2p : match2p r (classPosLt a g (n + 1)) (classPos s g) =
          match2p r (classPosLt a g n) (classPos s g) := by
        rw [match2p_classPosLt_succ s a r g n han, hfind]
        simp [optPair]
      have hInv' : ∀ v j, s[j]? = some v →
          (j ∈ c ↔ j ∈ (match2p r (classPosLt a v (n + 1)) (classPos s v)).map Prod.snd) := by
        intro v j hj
        by_cases hvg : v = g
        · subst hvg
          rw [hm2p]
          exact hInv v j hj
        · rw [classPosLt_succ_ne (by rw [han]; intro hcon; injection hcon with hcon; exact hvg hcon.symm)]
          exact hInv v j hj
      have hih := ih (n + 1) c hrest2 (by omega) hInv'
      constructor
      · intro v j hj
        have hmg : (jwMatchGo s r (g :: rest') n c).1 =
            (jwMatchGo s r rest' (n + 1) c).1 := by
          simp only [jwMatchGo, hinner']
        rw [hmg]
        exact hih.1 v j hj
      · intro k hk
        have hfl : (jwMatchGo s r (g :: rest') n c).2 =
            false :: (jwMatchGo s r rest' (n + 1) c).2 := by
          simp only [jwMatchGo, hinner']
        match k with
        | 0 =>
          rw [hfl]
          simp only [List.getD_cons_zero, Nat.add_zero]
          constructor
          · intro hcon
            exact absurd hcon (by simp)
          · rintro ⟨v, hv, hmem⟩
            rw [han] at hv
            have hvg : g = v := by injection hv
            subst hvg
            rw [hm2p] at hmem
            exact absurd (match2p_classPosLt_fst_lt s a r g n n hmem) (by omega)
        | k' + 1 =>
          rw [hfl]
          simp only [List.getD_cons_succ]
          rw [show n + (k' + 1) = n + 1 + k' by omega]
          exact hih.2 k' (by simpa using hk)
    | some j =>
      obtain ⟨hjmem, hjpred, _⟩ :=
        (find?_some_sorted_iff (classPosLt_sorted s g s.length)).mp hfind
      obtain ⟨hjlen, hjs⟩ := classPosLt_mem.mp hjmem
      have hinner' : jwInner s g (n - r) (min (n + r + 1) s.length) c = some j := by
        rw [hinner, hfind]
      have hm2p : match2p r (classPosLt a g (n + 1)) (classPos s g) =
          match2p r (classPosLt a g n) (classPos s g) ++ [(n, j)] := by
        rw [match2p_classPosLt_succ s a r g n han, hfind]
        rfl
      have hInv' : ∀ v j', s[j']? = some v →
          (j' ∈ insert j c ↔
            j' ∈ (match2p r (classPosLt a v (n + 1)) (classPos s v)).map Prod.snd) := by
        intro v j' hj'
        by_cases hvg : v = g
        · subst hvg
          rw [hm2p, List.map_append, List.mem_append, Finset.mem_insert]
          rw [← hInv v j' hj']
          simp only [List.map_cons, List.map_nil, List.mem_singleton]
          tauto
        · have hj'j : j' ≠ j := by
            intro hc
            rw [hc, hjs] at hj'
            injection hj' with hj'
            exact hvg hj'.symm
          rw [classPosLt_succ_ne (by rw [han]; intro hcon; injection hcon with hcon; exact hvg hcon.symm)]
          rw [Finset.mem_insert]
          constructor
          · rintro (hc | hc)
            · exact absurd hc hj'j
            · exact (hInv v j' hj').mp hc
          · intro hc
            exact Or.inr ((hInv v j' hj').mpr hc)
      have hih := ih (n + 1) (insert j c) hrest2 (by omega) hInv'
      constructor
      · intro v j' hj'
        have hmg : (jwMatchGo s r (g :: rest') n c).1 =
            (jwMatchGo s r rest' (n + 1) (insert j c)).1 := by
          simp only [jwMatchGo, hinner']
        rw [hmg]
        exact hih.1 v j' hj'
      · intro k hk
        have hfl : (jwMatchGo s r (g :: rest') n c).2 =
            true :: (jwMatchGo s r rest' (n + 1) (insert j c)).2 := by
          simp only [jwMatchGo, hinner']
        match k with
        | 0 =>
          rw [hfl]
          simp only [List.getD_cons_zero, Nat.add_zero]
          constructor
          · intro _
            refine ⟨g, han, ?_⟩
            rw [hm2p, List.map_append, List.mem_append]
            right
            simp
          · intro _
            trivial
        | k' + 1 =>
          rw [hfl]
          simp only [List.getD_cons_succ]
          rw [show n + (k' + 1) = n + 1 + k' by omega]
          exact hih.2 k' (by simpa using hk)

theorem jwMatchGo_claimed_iff (s a : List Gene) (r : ℕ) :
    ∀ v j, s[j]? = some v →
      (j ∈ (jwMatchGo s r a 0 ∅).1 ↔
        j ∈ (match2p r (classPos a v) (classPos s v)).map Prod.snd) := by
  have h := jwMatchGo_bridge s a r a 0 ∅ (List.drop_zero a).symm (Nat.zero_le _)
    (by
      intro v j _
      simp [classPosLt, match2p])
  exact h.1

theorem jwMatchGo_flags_iff (s a : List Gene) (r : ℕ) :
    ∀ k, ((jwMatchGo s r a 0 ∅).2.getD k false = true ↔
      ∃ v, a[k]? = some v ∧
        k ∈ (match2p r (classPos a v) (classPos s v)).map Prod.fst) := by
  have h := jwMatchGo_bridge s a r a 0 ∅ (List.drop_zero a).symm (Nat.zero_le _)
    (by
      intro v j _
      simp [classPosLt, match2p])
  intro k
  by_cases hk : k < a.length
  · have h2 := h.2 k hk
    rw [Nat.zero_add] at h2
    rw [h2]
    constructor
    · rintro ⟨v, hv, hmem⟩
      refine ⟨v, hv, ?_⟩
      exact (match2p_classPosLt_fst_stable s a r v (k + 1) a.length (by omega) k
        (by omega)).mp hmem
    · rintro ⟨v, hv, hmem⟩
      refine ⟨v, hv, ?_⟩
      exact (match2p_classPosLt_fst_stable s a r v (k + 1) a.length (by omega) k
        (by omega)).mpr hmem
  · have hlen : (jwMatchGo s r a 0 ∅).2.length ≤ k := by
      rw [jwMatchGo_flags_length]
      omega
    rw [List.getD_eq_default _ _ hlen]
    constructor
    · intro hcon
      exact absurd hcon (by simp)
    · rintro ⟨v, hv, _⟩
      rw [List.getElem?_eq_none (by omega)] at hv
      exact Option.noConfusion hv

theorem snd_swap_eq_fst (M : List (ℕ × ℕ)) :
    (M.map Prod.swap).map Prod.snd = M.map Prod.fst := by
  rw [List.map_map]
  rfl

theorem run2_claimed_iff_fst (s a : List Gene) (r : ℕ) (v : Gene) (n : ℕ)
    (hv : a[n]? = some v) :
    n ∈ (jwMatchGo a r s 0 ∅).1 ↔
      n ∈ (match2p r (classPos a v) (classPos s v)).map Prod.fst := by
  rw [jwMatchGo_claimed_iff a s r v n hv]
  rw [match2p_swap r ((classPos a v).length + (classPos s v).length)
    (classPos a v) (classPos s v) (le_refl _)]
  rw [snd_swap_eq_fst]

theorem claimed_eq_flags (s a : List Gene) (r : ℕ) :
    ∀ n, n ∈ (jwMatchGo a r s 0 ∅).1 ↔
      ((jwMatchGo s r a 0 ∅).2.getD n false = true) := by
  intro n
  rw [jwMatchGo_flags_iff s a r n]
  constructor
  · intro hmem
    have hsub := (jwMatchGo_claimed a r s 0 ∅ (by simp)).1 hmem
    have hn : n < a.length := Finset.mem_range.mp (hsub)
    have hv : a[n]? = some a[n] := List.getElem?_eq_getElem hn
    exact ⟨a[n], hv, (run2_claimed_iff_fst s a r a[n] n hv).mp hmem⟩
  · rintro ⟨v, hv, hmem⟩
    exact (run2_claimed_iff_fst s a r v n hv).mpr hmem

theorem count_true_eq_card (flags : List Bool) :
    ((Finset.range flags.length).filter fun n => flags.getD n false = true).card =
      flags.count true := by
  induction flags using List.reverseRecOn with
  | nil => simp
  | append_singleton l b ihl =>
    rw [List.length_append, List.length_singleton, Finset.range_succ, Finset.filter_insert]
    have hgl : (l ++ [b]).getD l.length false = b := by
      rw [List.getD_eq_getElem?_getD, List.getElem?_append_right (le_refl _)]
      simp
    have hcongr : (Finset.range l.length).filter
        (fun n => (l ++ [b]).getD n false = true) =
        (Finset.range l.length).filter (fun n => l.getD n false = true) := by
      apply Finset.filter_congr
      intro x hx
      rw [Finset.mem_range] at hx
      rw [List.getD_eq_getElem?_getD, List.getD_eq_getElem?_getD,
        List.getElem?_append, if_pos hx]
    rw [List.count_append]
    cases b with
    | false =>
      rw [if_neg (by rw [hgl]; simp)]
      rw [hcongr, ihl]
      simp
    | true =>
      rw [if_pos (by rw [hgl])]
      rw [Finset.card_insert_of_not_mem (by
        intro hc
        have := Finset.mem_range.mp (Finset.mem_of_mem_filter _ hc)
        omega)]
      rw [hcongr, ihl]
      simp

theorem m_symm (s a : List Gene) (r : ℕ) :
    (jwMatchGo a r s 0 ∅).2.count true = (jwMatchGo s r a 0 ∅).2.count true := by
  have h2 := (jwMatchGo_claimed a r s 0 ∅ (by simp)).2
  rw [Finset.card_empty, Nat.zero_add] at h2
  have hset : (jwMatchGo a r s 0 ∅).1 =
      (Finset.range (jwMatchGo s r a 0 ∅).2.length).filter
        (fun n => (jwMatchGo s r a 0 ∅).2.getD n false = true) := by
    ext n
    rw [Finset.mem_filter, Finset.mem_range]
    constructor
    · intro hmem
      have hflag := (claimed_eq_flags s a r n).mp hmem
      refine ⟨?_, hflag⟩
      by_contra hge
      push_neg at hge
      rw [List.getD_eq_default _ _ hge] at hflag
      exact absurd hflag (by simp)
    · rintro ⟨_, hflag⟩
      exact (claimed_eq_flags s a r n).mpr hflag
  rw [hset, count_true_eq_card] at h2
  exact h2.symm

/-! ### The transposition loop as a zip over flagged positions -/

/-- The positions at or after `l` whose flag is set, in increasing order. -/
def truePosFrom (flags : List Bool) (l : ℕ) : List ℕ :=
  (List.range' l (flags.length - l)).filter fun j => flags.getD j false

theorem findIdx_nil_eq_zero (p : Bool → Bool) : ([] : List Bool).findIdx p = 0 := rfl

theorem truePosFrom_step (flags : List Bool) :
    ∀ l, truePosFrom flags l =
      if l + (flags.drop l).findIdx (fun b => b) < flags.length then
        (l + (flags.drop l).findIdx (fun b => b)) ::
          truePosFrom flags (l + (flags.drop l).findIdx (fun b => b) + 1)
      else [] := by
  suffices H : ∀ (fuel l : ℕ), flags.length - l ≤ fuel → truePosFrom flags l =
      if l + (flags.drop l).findIdx (fun b => b) < flags.length then
        (l + (flags.drop l).findIdx (fun b => b)) ::
          truePosFrom flags (l + (flags.drop l).findIdx (fun b => b) + 1)
      else [] by
    intro l
    exact H (flags.length - l) l (le_refl _)
  intro fuel
  induction fuel with
  | zero =>
    intro l hfuel
    have hl : flags.length ≤ l := by omega
    have hdrop : flags.drop l = [] := List.drop_eq_nil_of_le hl
    rw [hdrop, findIdx_nil_eq_zero]
    rw [if_neg (by omega)]
    rw [truePosFrom, show flags.length - l = 0 by omega]
    rfl
  | succ fuel ihf =>
    intro l hfuel
    by_cases hl : l < flags.length
    · have hdrop : flags.drop l = flags[l] :: flags.drop (l + 1) :=
        List.drop_eq_getElem_cons hl
      have hgetd : flags.getD l false = flags[l] := List.getD_eq_getElem flags false hl
      have hrange : List.range' l (flags.length - l) =
          l :: List.range' (l + 1) (flags.length - (l + 1)) := by
        rw [show flags.length - l = (flags.length - (l + 1)) + 1 by omega, List.range'_succ]
      cases hb : (flags[l] : Bool) with
      | true =>
        have hfi : (flags.drop l).findIdx (fun b => b) = 0 := by
          rw [hdrop, List.findIdx_cons, hb]
          rfl
        rw [hfi, Nat.add_zero, if_pos hl]
        rw [truePosFrom, hrange]
        rw [List.filter_cons_of_pos (by rw [hgetd, hb])]
        rfl
      | false =>
        have hfi : (flags.drop l).findIdx (fun b => b) =
            (flags.drop (l + 1)).findIdx (fun b => b) + 1 := by
          rw [hdrop, List.findIdx_cons, hb]
          rfl
        have hpos : truePosFrom flags l = truePosFrom flags (l + 1) := by
          rw [truePosFrom, hrange, List.filter_cons_of_neg (by rw [hgetd, hb]; simp)]
          rfl
        rw [hpos, ihf (l + 1) (by omega), hfi]
        rw [show l + ((flags.drop (l + 1)).findIdx (fun b => b) + 1) =
          l + 1 + (flags.drop (l + 1)).findIdx (fun b => b) by omega]
    · have hdrop : flags.drop l = [] := List.drop_eq_nil_of_le (by omega)
      rw [hdrop, findIdx_nil_eq_zero]
      rw [if_neg (by omega)]
      rw [truePosFrom, show flags.length - l = 0 by omega]
      rfl

/-- Functional form of the transposition loop: consume one flagged-set
position per flagged element, counting mismatched aligned gene pairs. -/
def transSpec (s : List Gene) : List (Gene × Bool) → List ℕ → ℕ
  | [], _ => 0
  | (g, true) :: rest, j :: js =>
    (match s[j]? with
     | some x => if genesMatch g x then 0 else 1
     | none => 0) + transSpec s rest js
  | (_, true) :: rest, [] => transSpec s rest []
  | (_, false) :: rest, js => transSpec s rest js

theorem jwTransGo_eq_transSpec (s : List Gene) (sflags : List Bool)
    (hlen : sflags.length = s.length) :
    ∀ (L : List (Gene × Bool)) (l : ℕ),
      jwTransGo s sflags L l = transSpec s L (truePosFrom sflags l) := by
  intro L
  induction L with
  | nil => intro l; simp [jwTransGo, transSpec]
  | cons p rest ihL =>
    intro l
    obtain ⟨g, flag⟩ := p
    cases flag with
    | false =>
      simp only [jwTransGo, transSpec]
      rw [if_neg (by simp)]
      exact ihL l
    | true =>
      rw [truePosFrom_step sflags l]
      by_cases hj : l + (sflags.drop l).findIdx (fun b => b) < sflags.length
      · rw [if_pos hj]
        have hjs : l + (sflags.drop l).findIdx (fun b => b) < s.length := by omega
        have hsj : s[l + (sflags.drop l).findIdx (fun b => b)]? =
            some s[l + (sflags.drop l).findIdx (fun b => b)] :=
          List.getElem?_eq_getElem hjs
        simp only [jwTransGo, transSpec, if_true, hsj]
        rw [ihL (l + (sflags.drop l).findIdx (fun b => b) + 1)]
      · rw [if_neg hj]
        have hjs : ¬(l + (sflags.drop l).findIdx (fun b => b) < s.length) := by omega
        have hsj : s[l + (sflags.drop l).findIdx (fun b => b)]? = none :=
          List.getElem?_eq_none (by omega)
        simp only [jwTransGo, transSpec, if_true, hsj]
        rw [ihL l, truePosFrom_step sflags l, if_neg hj]

/-- The genes of the flagged elements, in order. -/
def flaggedGenes (L : List (Gene × Bool)) : List Gene :=
  L.filterMap fun gf => if gf.2 then some gf.1 else none

theorem transSpec_eq_countP (s : List Gene) :
    ∀ (L : List (Gene × Bool)) (js : List ℕ), (∀ j ∈ js, j < s.length) →
      transSpec s L js =
        ((flaggedGenes L).zip (js.filterMap fun j => s[j]?)).countP
          fun p => !genesMatch p.1 p.2 := by
  intro L
  induction L with
  | nil => intro js _; simp [transSpec, flaggedGenes]
  | cons p rest ihL =>
    intro js hjs
    obtain ⟨g, flag⟩ := p
    cases flag with
    | false =>
      have hfg : flaggedGenes ((g, false) :: rest) = flaggedGenes rest := by
        simp [flaggedGenes]
      rw [hfg]
      simp only [transSpec]
      exact ihL js hjs
    | true =>
      have hfg : flaggedGenes ((g, true) :: rest) = g :: flaggedGenes rest := by
        simp [flaggedGenes]
      rw [hfg]
      cases js with
      | nil =>
        simp only [transSpec, List.filterMap_nil, List.zip_nil_right, List.countP_nil]
        rw [ihL [] (by simp)]
        simp
      | cons j js' =>
        have hjlt : j < s.length := hjs j (List.mem_cons_self _ _)
        have hsj : s[j]? = some s[j] := List.getElem?_eq_getElem hjlt
        simp only [transSpec, hsj, List.filterMap_cons, List.zip_cons_cons, List.countP_cons]
        rw [ihL js' (fun x hx => hjs x (List.mem_cons_of_mem _ hx))]
        cases hgm : genesMatch g s[j] with
        | true => simp [hgm]
        | false => simp [hgm]; omega

theorem getD_map_range (n : ℕ) (f : ℕ → Bool) (j : ℕ) (hj : j < n) :
    ((List.range n).map f).getD j false = f j := by
  rw [List.getD_eq_getElem _ _ (by simp [hj])]
  simp

theorem truePosFrom_map_range (n : ℕ) (f : ℕ → Bool) :
    truePosFrom ((List.range n).map f) 0 = (List.range n).filter f := by
  rw [truePosFrom]
  simp only [List.length_map, List.length_range, Nat.sub_zero]
  rw [show List.range' 0 n = List.range n from (List.range_eq_range' n).symm]
  apply List.filter_congr
  intro x hx
  rw [getD_map_range n f x (List.mem_range.mp hx)]

theorem flaggedGenes_zip (a : List Gene) :
    ∀ (flags : List Bool), flags.length = a.length →
      flaggedGenes (a.zip flags) =
        ((List.range a.length).filter fun n => flags.getD n false).filterMap
          fun n => a[n]? := by
  induction a with
  | nil => intro flags _; simp [flaggedGenes]
  | cons x a' iha =>
    intro flags h
    cases flags with
    | nil => simp at h
    | cons b flags' =>
      have h' : flags'.length = a'.length := by simpa using h
      rw [List.zip_cons_cons]
      rw [show (x :: a').length = a'.length + 1 from rfl, List.range_succ_eq_map]
      have hcomp1 : ∀ m : ℕ, ((b :: flags').getD (Nat.succ m) false) = flags'.getD m false :=
        fun m => rfl
      have hfm : (((List.range a'.length).map Nat.succ).filter fun n =>
          (b :: flags').getD n false) =
          ((List.range a'.length).filter fun n => flags'.getD n false).map Nat.succ := by
        rw [List.filter_map]
        apply congrArg (List.map Nat.succ)
        apply List.filter_congr
        intro m _
        exact hcomp1 m
      have hcomp2 : ((fun n => (x :: a')[n]?) ∘ Nat.succ) = fun n : ℕ => a'[n]? := by
        funext m
        simp [Function.comp]
      cases b with
      | true =>
        rw [List.filter_cons_of_pos (by rfl)]
        have hflag : flaggedGenes ((x, true) :: a'.zip flags') =
            x :: flaggedGenes (a'.zip flags') := by simp [flaggedGenes]
        rw [hflag, hfm, List.filterMap_cons]
        simp only [List.getElem?_cons_zero]
        rw [List.filterMap_map]
        rw [hcomp2, iha flags' h']
      | false =>
        rw [List.filter_cons_of_neg (by simp)]
        have hflag : flaggedGenes ((x, false) :: a'.zip flags') =
            flaggedGenes (a'.zip flags') := by simp [flaggedGenes]
        rw [hflag, hfm, List.filterMap_map]
        rw [hcomp2, iha flags' h']

theorem posList_eq_clList (s a : List Gene) (r : ℕ) :
    ((List.range a.length).filter fun n => (jwMatchGo s r a 0 ∅).2.getD n false) =
      (List.range a.length).filter fun n => decide (n ∈ (jwMatchGo a r s 0 ∅).1) := by
  apply List.filter_congr
  intro x _
  rw [Bool.eq_iff_iff, decide_eq_true_eq]
  exact (claimed_eq_flags s a r x).symm

theorem beq_nat_comm (x y : ℕ) : (x == y) = (y == x) := by
  by_cases h : x = y
  · simp [h]
  · simp [h, Ne.symm h]

theorem countP_zip_swap_genes (X Y : List Gene) :
    (Y.zip X).countP (fun p => !genesMatch p.1 p.2) =
      (X.zip Y).countP (fun p => !genesMatch p.1 p.2) := by
  rw [← List.zip_swap X Y, List.countP_map]
  congr 1
  funext p
  simp only [Function.comp, Prod.fst_swap, Prod.snd_swap]
  rw [genesMatch_comm]

theorem t0_symm (s a : List Gene) (r : ℕ) :
    jwTransGo a ((List.range a.length).map fun j => decide (j ∈ (jwMatchGo a r s 0 ∅).1))
        (s.zip (jwMatchGo a r s 0 ∅).2) 0 =
      jwTransGo s ((List.range s.length).map fun j => decide (j ∈ (jwMatchGo s r a 0 ∅).1))
        (a.zip (jwMatchGo s r a 0 ∅).2) 0 := by
  rw [jwTransGo_eq_transSpec a _ (by simp) (s.zip (jwMatchGo a r s 0 ∅).2) 0]
  rw [jwTransGo_eq_transSpec s _ (by simp) (a.zip (jwMatchGo s r a 0 ∅).2) 0]
  rw [truePosFrom_map_range, truePosFrom_map_range]
  rw [transSpec_eq_countP a _ _ (by
    intro j hj
    have := List.mem_filter.mp hj
    exact List.mem_range.mp this.1)]
  rw [transSpec_eq_countP s _ _ (by
    intro j hj
    have := List.mem_filter.mp hj
    exact List.mem_range.mp this.1)]
  rw [flaggedGenes_zip s _ (jwMatchGo_flags_length a r s 0 ∅)]
  rw [flaggedGenes_zip a _ (jwMatchGo_flags_length s r a 0 ∅)]
  rw [posList_eq_clList s a r, posList_eq_clList a s r]
  exact countP_zip_swap_genes _ _

theorem jwPrefix_comm : ∀ (s a : List Gene) (n : ℕ), jwPrefix s a n = jwPrefix a s n := by
  intro s
  induction s with
  | nil => intro a n; cases a <;> cases n <;> rfl
  | cons x xs ih =>
    intro a n
    cases a with
    | nil => cases n <;> rfl
    | cons y ys =>
      cases n with
      | zero => rfl
      | succ n =>
        simp only [jwPrefix]
        rw [genesMatch_comm x y, ih ys n]

set_option maxHeartbeats 1600000 in
theorem jaro_winkler_distance_comm (g1 g2 : Genome) :
    jaro_winkler_distance g1 g2 = jaro_winkler_distance g2 g1 := by
  simp only [jaro_winkler_distance]
  rw [show max (g2.take 20).length (g1.take 20).length / 2 - 1 =
    max (g1.take 20).length (g2.take 20).length / 2 - 1 by rw [Nat.max_comm]]
  set s := g1.take 20 with hs
  set a := g2.take 20 with ha
  set r := max s.length a.length / 2 - 1 with hr
  by_cases h0 : s.length = 0 ∨ a.length = 0
  · rw [if_pos h0, if_pos (or_comm.mp h0)]
  · rw [if_neg h0, if_neg (fun hc => h0 (or_comm.mp hc))]
    rw [m_symm s a r]
    by_cases hm0 : (jwMatchGo s r a 0 ∅).2.count true = 0
    · rw [if_pos hm0, if_pos hm0]
    · rw [if_neg hm0, if_neg hm0]
      rw [t0_symm s a r]
      rw [jwPrefix_comm a s (min 4 (min a.length s.length))]
      rw [show min 4 (min a.length s.length) = min 4 (min s.length a.length) by
        rw [Nat.min_comm a.length]]
      congr 1
      ring

theorem hammingDistanceBits_comm (g1 g2 : Genome) :
    hammingDistanceBits g1 g2 = hammingDistanceBits g2 g1 := by
  unfold hammingDistanceBits
  by_cases hlen : g1.length = g2.length
  · rw [if_pos hlen, if_pos hlen.symm, hlen]
    have hsum : ((g2.zip g1).map fun p => popCount (geneWord p.1 ^^^ geneWord p.2)).sum =
        ((g1.zip g2).map fun p => popCount (geneWord p.1 ^^^ geneWord p.2)).sum := by
      rw [← List.zip_swap g1 g2, List.map_map]
      apply congrArg List.sum
      apply List.map_congr_left
      intro p _
      simp only [Function.comp, Prod.fst_swap, Prod.snd_swap]
      rw [Nat.xor_comm]
    rw [hsum]
  · rw [if_neg hlen, if_neg (fun hc => hlen hc.symm)]

theorem hammingDistanceBytes_comm (g1 g2 : Genome) :
    hammingDistanceBytes g1 g2 = hammingDistanceBytes g2 g1 := by
  unfold hammingDistanceBytes
  by_cases hlen : g1.length = g2.length
  · rw [if_pos hlen, if_pos hlen.symm, hlen]
    have hcount : (g2.zip g1).countP (fun p => geneWord p.1 == geneWord p.2) =
        (g1.zip g2).countP (fun p => geneWord p.1 == geneWord p.2) := by
      rw [← List.zip_swap g1 g2, List.countP_map]
      apply List.countP_congr
      intro p _
      simp only [Function.comp, Prod.fst_swap, Prod.snd_swap]
      rw [beq_nat_comm]
    rw [hcount]
  · rw [if_neg hlen, if_neg (fun hc => hlen hc.symm)]

/-! ### Claim C5: symmetry of genomeSimilarity -/

/-- Claim C5 (confirmed): `genomeSimilarity(g1, g2, m) = genomeSimilarity(g2, g1, m)`
for every method and every length combination.  On the unequal-length path
and under method 0, the windowed greedy matcher applied with the arguments
swapped claims exactly the mirrored pairs (its per-gene-value restriction
is a symmetric two-pointer matching), so the match count, the transposition
count and the prefix bonus — and hence the Jaro-Winkler score — are
symmetric; the exact metrics are symmetric by commutativity of XOR and of
word equality, and the error paths coincide. -/
theorem C5_symmetry (g1 g2 : Genome) (method : ℤ) :
    genomeSimilarity g1 g2 method = genomeSimilarity g2 g1 method := by
  by_cases hlen : g1.length = g2.length
  · by_cases h0 : method = 0
    · subst h0
      rw [genomeSimilarity_method0 hlen, genomeSimilarity_method0 hlen.symm,
        jaro_winkler_distance_comm]
    · by_cases h1 : method = 1
      · subst h1
        rw [genomeSimilarity_method1 hlen, genomeSimilarity_method1 hlen.symm,
          hammingDistanceBits_comm]
      · by_cases h2 : method = 2
        · subst h2
          rw [genomeSimilarity_method2 hlen, genomeSimilarity_method2 hlen.symm,
            hammingDistanceBytes_comm]
        · rw [genomeSimilarity_method_bad hlen h0 h1 h2,
            genomeSimilarity_method_bad hlen.symm h0 h1 h2]
  · rw [genomeSimilarity_of_len_ne method hlen,
      genomeSimilarity_of_len_ne method (fun hc => hlen hc.symm)]
    rw [jaro_winkler_distance_comm g1 g2,
      min_comm (g1.length : ℚ) (g2.length : ℚ), max_comm (g1.length : ℚ) (g2.length : ℚ)]

end BS
